import Mathlib

/-!
The KEXINIT decoder of sshscan.

A shallow embedding of `sshscan.go` (package `sshscan`): the record `SSHExchange`,
the function `readNext` and the function `Inspect`, together with the parts of the
Go runtime and standard library they rely on (slice expressions, `copy`,
`binary.Read` of a big-endian `uint32`, `strings.Split`, the `%s`, `%d` and `%x`
verbs of `fmt.Sprintf`).

Conventions of the embedding:

* a Go `byte` is a `Fin 256`; a Go `[]byte` whose capacity equals its length (as
  returned by `make([]byte, n)`) is a `List Byte`; a Go `string` is the list of its
  bytes (`GoString`);
* a Go `[]string` is a `List GoString`, the `nil` slice being `[]`
  (`strings.Split` with a non-empty separator never returns an empty slice, so the
  two are never confused);
* Go `int` is 64 bits wide: every offset computed by the decoder is below
  `35004 + 2^32`, so no `int` operation wraps and offsets are natural numbers;
* a run-time panic (an index or slice expression out of range) is the outcome
  `none`; a normal return is `some _`.
-/

namespace sshscan

/-! ## Go runtime and standard library -/

/-- A Go `byte`. -/
abbrev Byte := Fin 256

/-- A Go `string`: an immutable sequence of bytes. -/
abbrev GoString := List Byte

/-- A Go string literal (ASCII only), as the sequence of its bytes. -/
def lit (s : String) : GoString := s.toList.map (fun c => Fin.ofNat c.toNat)

/-- The slice expression `buf[lo:hi]` on a slice whose capacity equals its length:
`none` is the run-time panic "slice bounds out of range". -/
def slice (buf : List Byte) (lo hi : Nat) : Option (List Byte) :=
  if lo ≤ hi ∧ hi ≤ buf.length then some ((buf.drop lo).take (hi - lo)) else none

/-- The index expression `buf[i]`: `none` is the run-time panic "index out of range". -/
def index (buf : List Byte) (i : Nat) : Option Byte := buf[i]?

/-- The builtin `copy(dst, src)`: overwrites the first `min(len(dst), len(src))`
elements of `dst`. -/
def copy (dst src : List Byte) : List Byte :=
  src.take dst.length ++ dst.drop src.length

/-- `binary.BigEndian.Uint32` on four bytes. -/
def bigEndianUint32 (b0 b1 b2 b3 : Byte) : Nat :=
  b0.val * 2 ^ 24 + b1.val * 2 ^ 16 + b2.val * 2 ^ 8 + b3.val

/-- `binary.Read(bytes.NewBuffer(b), binary.BigEndian, &v)` for `v` of type `uint32`:
`io.ReadFull` of four bytes, then the big-endian value. With no byte available the
error is `io.EOF`, with one to three bytes `io.ErrUnexpectedEOF`; the error is given
by its `Error()` text. On an error `v` is left untouched. -/
def binaryRead (b : List Byte) : Except GoString Nat :=
  match b with
  | b0 :: b1 :: b2 :: b3 :: _ => .ok (bigEndianUint32 b0 b1 b2 b3)
  | [] => .error (lit "EOF")
  | _ => .error (lit "unexpected EOF")

/-- `strings.Split(s, sep)` for a separator `sep` of one byte: the substrings of `s`
between the occurrences of `sep`, in order (one more than the number of
occurrences). -/
def Split (s : GoString) (sep : Byte) : List GoString :=
  match s with
  | [] => [[]]
  | c :: cs =>
    if c = sep then [] :: Split cs sep
    else
      match Split cs sep with
      | [] => [[c]]
      | w :: ws => (c :: w) :: ws

/-- The digit `d` of a number in base at most 16, as `fmt` prints it (lower case). -/
def digitByte (d : Nat) : Byte :=
  if d < 10 then Fin.ofNat (48 + d) else Fin.ofNat (87 + d)

/-- The digits of `n` in base `base`, most significant first, before `acc`;
`fuel` bounds the number of digits. -/
def fmtDigits (base : Nat) : Nat → Nat → GoString → GoString
  | 0, _, acc => acc
  | fuel + 1, n, acc =>
    if n / base = 0 then digitByte (n % base) :: acc
    else fmtDigits base fuel (n / base) (digitByte (n % base) :: acc)

/-- The verb `%d` of `fmt.Sprintf` applied to a non-negative integer. -/
def fmtDec (n : Nat) : GoString := fmtDigits 10 (n + 1) n []

/-- The verb `%x` of `fmt.Sprintf` applied to a non-negative integer. -/
def fmtHex (n : Nat) : GoString := fmtDigits 16 (n + 1) n []

/-! ## sshscan.go -/

/-- Parameters exchanged between server and client during the connection setup and
key exchange algorithm negotiation step. -/
structure SSHExchange where
  Server : GoString
  Port : GoString
  ProtocolVersion : GoString
  Cookie : List Byte
  KEXAlgorithms : List GoString
  ServerHostKeyAlgos : List GoString
  EncAlgosC2S : List GoString
  EncAlgosS2C : List GoString
  MACAlgosC2S : List GoString
  MACAlgosS2C : List GoString
  CompAlgosC2S : List GoString
  CompAlgosS2C : List GoString
  LanguagesC2S : List GoString
  LanguagesS2C : List GoString
  Fail : Bool
  FailReason : GoString
deriving DecidableEq, Repr

/-- The zero value of `SSHExchange` (`Cookie` is a `[16]byte`). -/
def SSHExchange.zero : SSHExchange :=
  { Server := [], Port := [], ProtocolVersion := [], Cookie := List.replicate 16 0,
    KEXAlgorithms := [], ServerHostKeyAlgos := [], EncAlgosC2S := [], EncAlgosS2C := [],
    MACAlgosC2S := [], MACAlgosS2C := [], CompAlgosC2S := [], CompAlgosS2C := [],
    LanguagesC2S := [], LanguagesS2C := [], Fail := false, FailReason := [] }

/-- Read max of 35k bytes. -/
def maxSize : Nat := 35000

/-- The format `badServer` applied by `fmt.Sprintf` to a host (`%s`) and an offset
(`%d`). -/
def badServer (host : GoString) (n : Nat) : GoString :=
  lit "Server " ++ host ++
    lit " is trying to overflow us ;-), we do not expect the key exchange to exceed 35000 bytes, but server is trying to access "
    ++ fmtDec n ++ lit " byte\n"

/-- The format of the message-type failure, `"Expecting an SSH_MSG_KEXINIT (0x%x), but
got 0x%x"`, applied by `fmt.Sprintf` to two integers. -/
def expectingKexinit (want got : Nat) : GoString :=
  lit "Expecting an SSH_MSG_KEXINIT (0x" ++ fmtHex want ++ lit "), but got 0x" ++ fmtHex got

/-- What a call of `readNext` leaves behind: the variables behind its pointer
arguments `begin`, `end`, `nextLength` and `data`, and its two results. -/
structure ReadState where
  begin : Nat
  stop : Nat
  nextLength : Nat
  data : SSHExchange
  result : List GoString
  err : Option GoString
deriving DecidableEq, Repr

/-- The function `readNext`: `stop` stands for the variable `end`. The result is `none`
when a slice expression panics. -/
def readNext (buf : List Byte) (begin stop nextLength : Nat) (data : SSHExchange)
    (host : GoString) : Option ReadState :=
  match slice buf stop (stop + 4) with
  | none => none
  | some b =>
    match binaryRead b with
    | .error e =>
      some { begin := begin, stop := stop, nextLength := nextLength,
             data := { data with Fail := true, FailReason := e }, result := [], err := some e }
    | .ok n =>
      let nextLength := n
      let begin := stop + 4
      let stop := begin + nextLength
      if stop > maxSize then
        some { begin := begin, stop := stop, nextLength := nextLength,
               data := { data with Fail := true, FailReason := badServer host stop },
               result := [], err := none }
      else if begin ≠ stop then
        match slice buf begin stop with
        | none => none
        | some s =>
          some { begin := begin, stop := stop, nextLength := nextLength, data := data,
                 result := Split s 44, err := none }
      else
        some { begin := begin, stop := stop, nextLength := nextLength, data := data,
               result := [], err := none }

/-- The decoding part of `Inspect`: everything after the second `conn.Read` has filled
`buf`. `data` is the named result of `Inspect` as it stands at that point, `host` the
argument of `Inspect`. The result is `none` when an index or slice expression
panics. -/
def Inspect.decode (buf : List Byte) (data : SSHExchange) (host : GoString) :
    Option SSHExchange :=
  -- size of payload
  match slice buf 0 4 with
  | none => none
  | some b =>
  match binaryRead b with
  | .error e => some { data with Fail := true, FailReason := e }
  | .ok _ =>
  match index buf 5 with
  | none => none
  | some t =>
  -- ensure that we are looking at an SSH_MSG_KEXINIT
  if t ≠ 20 then
    some { data with Fail := true, FailReason := expectingKexinit 20 t.val }
  else
  -- Server Random Cookies
  let payloadBegin := 5 + 1 + 16
  match slice buf 6 payloadBegin with
  | none => none
  | some c =>
  let data := { data with Cookie := copy data.Cookie c }
  let nextLength := 0
  let begin := payloadBegin
  let stop := payloadBegin
  -- Key exchange algorithms
  match readNext buf begin stop nextLength data host with
  | none => none
  | some r1 =>
  if r1.err.isSome then some r1.data else
  let data := { r1.data with KEXAlgorithms := r1.result }
  -- Server host key algorithms
  match readNext buf r1.begin r1.stop r1.nextLength data host with
  | none => none
  | some r2 =>
  if r2.err.isSome then some r2.data else
  let data := { r2.data with ServerHostKeyAlgos := r2.result }
  -- encryption algorithms client-to-server
  match readNext buf r2.begin r2.stop r2.nextLength data host with
  | none => none
  | some r3 =>
  if r3.err.isSome then some r3.data else
  let data := { r3.data with EncAlgosC2S := r3.result }
  -- encryption algorithms server-to-client
  match readNext buf r3.begin r3.stop r3.nextLength data host with
  | none => none
  | some r4 =>
  if r4.err.isSome then some r4.data else
  let data := { r4.data with EncAlgosS2C := r4.result }
  -- MAC algorithms client-to-server
  match readNext buf r4.begin r4.stop r4.nextLength data host with
  | none => none
  | some r5 =>
  if r5.err.isSome then some r5.data else
  let data := { r5.data with MACAlgosC2S := r5.result }
  -- MAC algorithms server-to-client
  match readNext buf r5.begin r5.stop r5.nextLength data host with
  | none => none
  | some r6 =>
  if r6.err.isSome then some r6.data else
  let data := { r6.data with MACAlgosS2C := r6.result }
  -- compression algorithms client-to-server
  match readNext buf r6.begin r6.stop r6.nextLength data host with
  | none => none
  | some r7 =>
  if r7.err.isSome then some r7.data else
  let data := { r7.data with CompAlgosC2S := r7.result }
  -- compression algorithms server-to-client
  match readNext buf r7.begin r7.stop r7.nextLength data host with
  | none => none
  | some r8 =>
  if r8.err.isSome then some r8.data else
  let data := { r8.data with CompAlgosS2C := r8.result }
  -- languages client-to-server
  match readNext buf r8.begin r8.stop r8.nextLength data host with
  | none => none
  | some r9 =>
  if r9.err.isSome then some r9.data else
  let data := { r9.data with LanguagesC2S := r9.result }
  -- languages server-to-client
  match readNext buf r9.begin r9.stop r9.nextLength data host with
  | none => none
  | some r10 =>
  if r10.err.isSome then some r10.data else
  let data := { r10.data with LanguagesS2C := r10.result }
  some data

/-- What the network does during one probe: the error of `net.DialTimeout` if any, the
bytes delivered by the first `conn.Read` or its error, the error of `conn.Write` if
any, and the bytes delivered by the second `conn.Read` or its error. -/
structure Conn where
  dial : Option GoString
  banner : Except GoString (List Byte)
  write : Option GoString
  kex : Except GoString (List Byte)

/-- The function `Inspect`, against a peer that behaves as `conn` says. A `conn.Read`
into `buf` that delivers the bytes `p` leaves `copy(buf, p)` in `buf` and returns
`n = min(len(buf), len(p))`. -/
def Inspect (host port : GoString) (conn : Conn) : Option SSHExchange :=
  let data := { SSHExchange.zero with Server := host, Port := port }
  match conn.dial with
  | some e => some { data with Fail := true, FailReason := e }
  | none =>
  -- get protocol version
  match conn.banner with
  | .error e => some { data with Fail := true, FailReason := e }
  | .ok p =>
  let buf := copy (List.replicate 255 0) p
  let n := min 255 p.length
  match slice buf 0 n with
  | none => none
  | some v =>
  let data := { data with ProtocolVersion := v }
  match conn.write with
  | some e => some { data with Fail := true, FailReason := e }
  | none =>
  -- Key Exchange
  match conn.kex with
  | .error e => some { data with Fail := true, FailReason := e }
  | .ok p =>
  let buf := copy (List.replicate maxSize 0) p
  Inspect.decode buf data host

/-! ## The name-list part of `Inspect` as an iteration

`Inspect` reads its ten name-lists by ten copies of the same three statements. The
definitions below express that part as one iteration over the ten fields, so that it
can be reasoned about by induction; `Inspect.decode_eq_readFields` relates it to
`Inspect.decode`. -/

/-- The ten name-list fields of `SSHExchange`, in the order `Inspect` assigns them. -/
inductive Field where
  | KEXAlgorithms
  | ServerHostKeyAlgos
  | EncAlgosC2S
  | EncAlgosS2C
  | MACAlgosC2S
  | MACAlgosS2C
  | CompAlgosC2S
  | CompAlgosS2C
  | LanguagesC2S
  | LanguagesS2C
deriving DecidableEq, Repr

/-- The ten fields in the order of `Inspect`. -/
def Field.all : List Field :=
  [.KEXAlgorithms,
   .ServerHostKeyAlgos,
   .EncAlgosC2S,
   .EncAlgosS2C,
   .MACAlgosC2S,
   .MACAlgosS2C,
   .CompAlgosC2S,
   .CompAlgosS2C,
   .LanguagesC2S,
   .LanguagesS2C]

/-- The assignment `data.f = v`. -/
def SSHExchange.set (data : SSHExchange) (f : Field) (v : List GoString) : SSHExchange :=
  match f with
  | .KEXAlgorithms => { data with KEXAlgorithms := v }
  | .ServerHostKeyAlgos => { data with ServerHostKeyAlgos := v }
  | .EncAlgosC2S => { data with EncAlgosC2S := v }
  | .EncAlgosS2C => { data with EncAlgosS2C := v }
  | .MACAlgosC2S => { data with MACAlgosC2S := v }
  | .MACAlgosS2C => { data with MACAlgosS2C := v }
  | .CompAlgosC2S => { data with CompAlgosC2S := v }
  | .CompAlgosS2C => { data with CompAlgosS2C := v }
  | .LanguagesC2S => { data with LanguagesC2S := v }
  | .LanguagesS2C => { data with LanguagesS2C := v }

/-- The value of `data.f`. -/
def SSHExchange.get (data : SSHExchange) (f : Field) : List GoString :=
  match f with
  | .KEXAlgorithms => data.KEXAlgorithms
  | .ServerHostKeyAlgos => data.ServerHostKeyAlgos
  | .EncAlgosC2S => data.EncAlgosC2S
  | .EncAlgosS2C => data.EncAlgosS2C
  | .MACAlgosC2S => data.MACAlgosC2S
  | .MACAlgosS2C => data.MACAlgosS2C
  | .CompAlgosC2S => data.CompAlgosC2S
  | .CompAlgosS2C => data.CompAlgosS2C
  | .LanguagesC2S => data.LanguagesC2S
  | .LanguagesS2C => data.LanguagesS2C

/-- The variables of `Inspect` that `readNext` works on. -/
structure Cursor where
  begin : Nat
  stop : Nat
  nextLength : Nat
  data : SSHExchange
deriving DecidableEq, Repr

/-- The statements `result, err = readNext(...); if err != nil { return };
data.f = result`, once for each field of `fs` in turn. The result is the state at
the `return` (`none` when `readNext` panics). -/
def readFields (buf : List Byte) (host : GoString) : List Field → Cursor → Option Cursor
  | [], c => some c
  | f :: fs, c =>
    match readNext buf c.begin c.stop c.nextLength c.data host with
    | none => none
    | some r =>
      if r.err.isSome then some ⟨r.begin, r.stop, r.nextLength, r.data⟩
      else readFields buf host fs ⟨r.begin, r.stop, r.nextLength, r.data.set f r.result⟩

/-- The data returned by `Inspect` when its name-list part is run as `readFields`. -/
def readFieldsData (buf : List Byte) (host : GoString) : List Field → Cursor → Option SSHExchange
  | [], c => some c.data
  | f :: fs, c =>
    match readNext buf c.begin c.stop c.nextLength c.data host with
    | none => none
    | some r =>
      if r.err.isSome then some r.data
      else readFieldsData buf host fs ⟨r.begin, r.stop, r.nextLength, r.data.set f r.result⟩

/-! ## The wire format, as the specification words it

A KEXINIT packet is a 4-byte length, a 1-byte padding length, the message type (20), a
16-byte cookie, and ten name-lists; each name-list is a 4-byte big-endian length `L`
followed by `L` bytes holding names separated by commas. -/

/-- The byte of `buf` at offset `i` (zero beyond the buffer). -/
def byteAt (buf : List Byte) (i : Nat) : Byte := buf.getD i 0

/-- The big-endian 32-bit number held by the four bytes of `buf` at offsets
`e .. e+3`. -/
def lengthAt (buf : List Byte) (e : Nat) : Nat :=
  (byteAt buf e).val * 2 ^ 24 + (byteAt buf (e + 1)).val * 2 ^ 16
    + (byteAt buf (e + 2)).val * 2 ^ 8 + (byteAt buf (e + 3)).val

/-- The offset at which the `k`-th name-list ends (`k = 0`: the offset 22 at which the
first one starts): each name-list starts where the previous one ends. -/
def fieldEnd (buf : List Byte) : Nat → Nat
  | 0 => 22
  | k + 1 => fieldEnd buf k + 4 + lengthAt buf (fieldEnd buf k)

/-- The content bytes of the name-list number `k + 1`: the `L` bytes that follow its
4-byte length `L`. -/
def fieldContent (buf : List Byte) (k : Nat) : List Byte :=
  (buf.drop (fieldEnd buf k + 4)).take (lengthAt buf (fieldEnd buf k))

/-- The names held by the content of a name-list: none for an empty content, otherwise
the pieces between the commas. -/
def nameList (content : List Byte) : List GoString :=
  if content = [] then [] else Split content 44

/-- The comma-joined names: the content of the name-list that holds `names`. -/
def joinNames : List GoString → List Byte
  | [] => []
  | [w] => w
  | w :: ws => w ++ 44 :: joinNames ws

/-- The four bytes of the big-endian 32-bit number `n`. -/
def encodeUint32 (n : Nat) : List Byte :=
  [Fin.ofNat (n / 2 ^ 24), Fin.ofNat (n / 2 ^ 16), Fin.ofNat (n / 2 ^ 8), Fin.ofNat n]

/-- The encoding of one name-list: the length of the comma-joined names, then the
comma-joined names. -/
def encodeNameList (names : List GoString) : List Byte :=
  encodeUint32 (joinNames names).length ++ joinNames names

/-- The record `readFields` leaves behind when every name-list of `fs` lies within the
buffer, the first of them being name-list number `k + 1`. -/
def fill (buf : List Byte) : List Field → Nat → SSHExchange → SSHExchange
  | [], _, d => d
  | f :: fs, k, d => fill buf fs (k + 1) (d.set f (nameList (fieldContent buf k)))

/-- The record `readFields` leaves behind when every name-list of `fs` but the last lies
within the buffer and the last one fails the bounds check. -/
def failFill (buf : List Byte) (host : GoString) : List Field → Nat → SSHExchange → SSHExchange
  | [], _, d => d
  | [f], k, d =>
    ({ d with Fail := true, FailReason := badServer host (fieldEnd buf (k + 1)) }).set f []
  | f :: g :: fs, k, d =>
    failFill buf host (g :: fs) (k + 1) (d.set f (nameList (fieldContent buf k)))

/-- The record `Inspect` works on once it has copied the cookie. -/
def withCookie (buf : List Byte) (data : SSHExchange) : SSHExchange :=
  { data with Cookie := copy data.Cookie ((buf.drop 6).take 16) }

/-- What a peer sends as its KEXINIT packet: the 22 bytes of a KEXINIT header and the
length 34974 of a first name-list, and nothing more. -/
def pktAbort : List Byte :=
  [0, 0, 0, 0, 0, 20] ++ List.replicate 16 0 ++ [0, 0, 136, 158]

/-- The receive buffer after `pktAbort` has been read into it: `pktAbort` and zero bytes
up to 35000. -/
def bufAbort : List Byte := pktAbort ++ List.replicate 34974 0

/-- What a peer sends as its KEXINIT packet: the 22 bytes of a KEXINIT header and the
length 4294967295 of a first name-list, and nothing more. -/
def pktOverflow : List Byte :=
  [0, 0, 0, 0, 0, 20] ++ List.replicate 16 0 ++ [255, 255, 255, 255]

/-- The receive buffer after `pktOverflow` has been read into it: `pktOverflow` and zero
bytes up to 35000. -/
def bufOverflow : List Byte := pktOverflow ++ List.replicate 34974 0

/-- A peer that accepts the connection, sends the banner "SSH-2.0-x", accepts the banner
of the scanner and sends `pkt` as its KEXINIT packet. -/
def peer (pkt : List Byte) : Conn :=
  { dial := none, banner := .ok (lit "SSH-2.0-x\r\n"), write := none, kex := .ok pkt }

/-- The value of a digit as `digitByte` prints it. -/
def digitValue (b : Byte) : Nat := if b.val < 58 then b.val - 48 else b.val - 87

/-- The number that a string of digits denotes in base `base`. -/
def parseDigits (base : Nat) (s : GoString) : Nat :=
  s.foldl (fun v b => base * v + digitValue b) 0

/-- A receive buffer holding a well-formed KEXINIT packet: cookie 1, 2, .., 16, first
name-list "a,b,c", second name-list "aes256-ctr", eight empty name-lists, and zero
bytes up to 35000. -/
def bufSample : List Byte :=
  [0, 0, 0, 0, 0, 20] ++ [1, 2, 3, 4, 5, 6, 7, 8, 9, 10, 11, 12, 13, 14, 15, 16]
    ++ [0, 0, 0, 5] ++ [97, 44, 98, 44, 99]
    ++ [0, 0, 0, 10] ++ [97, 101, 115, 50, 53, 54, 45, 99, 116, 114]
    ++ List.replicate 34955 0

/-- A receive buffer: the 22 bytes of a KEXINIT header with cookie 1, 2, .., 16, nine
empty name-lists, a tenth name-list that declares 4294967295 content bytes, and zero
bytes up to 35000. -/
def bufLastOverflow : List Byte :=
  [0, 0, 0, 0, 0, 20] ++ [1, 2, 3, 4, 5, 6, 7, 8, 9, 10, 11, 12, 13, 14, 15, 16]
    ++ List.replicate 36 0 ++ [255, 255, 255, 255] ++ List.replicate 34938 0

/-- The receive buffer of the end-to-end scenario: packet length 58, padding length 0,
message type 20, a zero cookie, the length 3 at offsets 22 to 25, the bytes "ab" at
offsets 26 and 27, and zero bytes up to 35000. -/
def bufScenario : List Byte :=
  [0, 0, 0, 58, 0, 20] ++ List.replicate 16 0 ++ [0, 0, 0, 3] ++ [97, 98]
    ++ List.replicate 34972 0

/-- The iteration `readFields`, which also records the values of `begin` and `end` that
each call of `readNext` leaves behind, in the order of the calls. -/
def readFieldsTrace (buf : List Byte) (host : GoString) :
    List Field → Cursor → List (Nat × Nat) × Option Cursor
  | [], c => ([], some c)
  | f :: fs, c =>
    match readNext buf c.begin c.stop c.nextLength c.data host with
    | none => ([], none)
    | some r =>
      if r.err.isSome then ([(r.begin, r.stop)], some ⟨r.begin, r.stop, r.nextLength, r.data⟩)
      else
        let t := readFieldsTrace buf host fs
          ⟨r.begin, r.stop, r.nextLength, r.data.set f r.result⟩
        ((r.begin, r.stop) :: t.1, t.2)

/-- The cursor moves forward from `p` to `q` (pairs of `begin` and `end`): the new `begin`
is the old `end` plus 4, it is at most the new `end`, and the new `end` is beyond the old
one. -/
def Forward (p q : Nat × Nat) : Prop := q.1 = p.2 + 4 ∧ q.1 ≤ q.2 ∧ p.2 < q.2

/-- The packet of `bufSample` in a buffer with other bytes at offsets 0 to 4 (packet
length and padding length) and other bytes after the end of the tenth name-list (offset
77). -/
def bufSampleNoise : List Byte :=
  [9, 8, 7, 6, 5, 20] ++ [1, 2, 3, 4, 5, 6, 7, 8, 9, 10, 11, 12, 13, 14, 15, 16]
    ++ [0, 0, 0, 5] ++ [97, 44, 98, 44, 99]
    ++ [0, 0, 0, 10] ++ [97, 101, 115, 50, 53, 54, 45, 99, 116, 114]
    ++ List.replicate 32 0 ++ List.replicate 34923 255

/-- What a peer sends as its KEXINIT packet: the 22 bytes of a KEXINIT header with cookie
1, 2, .., 16, a first name-list "a,b,c", and the length 4294967295 of a second
name-list, and nothing more. -/
def pktSecondOverflow : List Byte :=
  [0, 0, 0, 0, 0, 20] ++ [1, 2, 3, 4, 5, 6, 7, 8, 9, 10, 11, 12, 13, 14, 15, 16]
    ++ [0, 0, 0, 5] ++ [97, 44, 98, 44, 99] ++ [255, 255, 255, 255]

/-- The receive buffer after `pktSecondOverflow` has been read into it:
`pktSecondOverflow` and zero bytes up to 35000. -/
def bufSecondOverflow : List Byte := pktSecondOverflow ++ List.replicate 34965 0

/-- What a peer sends as its KEXINIT packet: the 22 bytes of a KEXINIT header with cookie
1, 2, .., 16 and the length 4294967295 of a first name-list, and nothing more. -/
def pktCookieOverflow : List Byte :=
  [0, 0, 0, 0, 0, 20] ++ [1, 2, 3, 4, 5, 6, 7, 8, 9, 10, 11, 12, 13, 14, 15, 16]
    ++ [255, 255, 255, 255]

/-- The receive buffer after `pktCookieOverflow` has been read into it:
`pktCookieOverflow` and zero bytes up to 35000. -/
def bufCookieOverflow : List Byte := pktCookieOverflow ++ List.replicate 34974 0

/-! ## Slices and `readNext` -/

theorem slice_of_le (buf : List Byte) (lo hi : Nat) (h1 : lo ≤ hi) (h2 : hi ≤ buf.length) :
    slice buf lo hi = some ((buf.drop lo).take (hi - lo)) := by
  simp [slice, h1, h2]

theorem slice_of_gt (buf : List Byte) (lo hi : Nat) (h : buf.length < hi) :
    slice buf lo hi = none := by
  simp only [slice]
  rw [if_neg]
  omega

theorem drop_take_four (buf : List Byte) (e : Nat) (h : e + 4 ≤ buf.length) :
    (buf.drop e).take 4
      = [byteAt buf e, byteAt buf (e + 1), byteAt buf (e + 2), byteAt buf (e + 3)] := by
  induction buf generalizing e with
  | nil => simp at h
  | cons a as ih =>
    cases e with
    | zero =>
      match as, h with
      | b :: c :: d :: _, _ => simp [byteAt]
    | succ e =>
      have h' : e + 4 ≤ as.length := by simpa using h
      have := ih e h'
      simpa [byteAt, Nat.add_right_comm] using this

theorem binaryRead_slice (buf : List Byte) (e : Nat) (h : e + 4 ≤ buf.length) :
    binaryRead ((buf.drop e).take 4) = .ok (lengthAt buf e) := by
  rw [drop_take_four buf e h]
  rfl

theorem readNext_panic (buf : List Byte) (begin stop nextLength : Nat) (data : SSHExchange)
    (host : GoString) (h : buf.length < stop + 4) :
    readNext buf begin stop nextLength data host = none := by
  simp [readNext, slice_of_gt buf stop (stop + 4) h]

theorem readNext_overflow (buf : List Byte) (begin stop nextLength : Nat) (data : SSHExchange)
    (host : GoString) (h : stop + 4 ≤ buf.length)
    (hov : maxSize < stop + 4 + lengthAt buf stop) :
    readNext buf begin stop nextLength data host
      = some { begin := stop + 4, stop := stop + 4 + lengthAt buf stop,
               nextLength := lengthAt buf stop,
               data := { data with Fail := true,
                                   FailReason := badServer host (stop + 4 + lengthAt buf stop) },
               result := [], err := none } := by
  have hs : slice buf stop (stop + 4) = some ((buf.drop stop).take 4) := by
    rw [slice_of_le buf stop (stop + 4) (by omega) h]; simp
  simp only [readNext, hs, binaryRead_slice buf stop h]
  rw [if_pos (by simpa using hov)]

theorem readNext_field (buf : List Byte) (begin stop nextLength : Nat) (data : SSHExchange)
    (host : GoString) (hlen : buf.length = maxSize)
    (hin : stop + 4 + lengthAt buf stop ≤ maxSize) :
    readNext buf begin stop nextLength data host
      = some { begin := stop + 4, stop := stop + 4 + lengthAt buf stop,
               nextLength := lengthAt buf stop, data := data,
               result := nameList ((buf.drop (stop + 4)).take (lengthAt buf stop)),
               err := none } := by
  have h : stop + 4 ≤ buf.length := by omega
  have hs : slice buf stop (stop + 4) = some ((buf.drop stop).take 4) := by
    rw [slice_of_le buf stop (stop + 4) (by omega) h]; simp
  simp only [readNext, hs, binaryRead_slice buf stop h]
  rw [if_neg (by omega)]
  by_cases hz : lengthAt buf stop = 0
  · simp [hz, nameList]
  · have hs2 : slice buf (stop + 4) (stop + 4 + lengthAt buf stop)
        = some ((buf.drop (stop + 4)).take (lengthAt buf stop)) := by
      rw [slice_of_le buf _ _ (by omega) (by omega)]; simp
    have hne : (buf.drop (stop + 4)).take (lengthAt buf stop) ≠ [] := by
      intro hnil
      have := congrArg List.length hnil
      simp at this
      omega
    simp [hz, hs2, nameList, hne]

/-! ## `Inspect.decode` as an iteration -/

theorem readFieldsData_eq (buf : List Byte) (host : GoString) (fs : List Field) (c : Cursor) :
    readFieldsData buf host fs c = (readFields buf host fs c).map (fun c => c.data) := by
  induction fs generalizing c with
  | nil => rfl
  | cons f fs ih =>
    simp only [readFieldsData, readFields]
    cases readNext buf c.begin c.stop c.nextLength c.data host with
    | none => rfl
    | some r =>
      by_cases he : r.err.isSome
      · simp [he]
      · simp [he, ih]

theorem index_of_byteAt (buf : List Byte) (i : Nat) (h : i < buf.length) :
    index buf i = some (byteAt buf i) := by
  simp [index, byteAt, List.getD, List.getElem?_eq_getElem h]

theorem Inspect.decode_unfold (buf : List Byte) (data : SSHExchange) (host : GoString) :
    Inspect.decode buf data host
      = match slice buf 0 4 with
        | none => none
        | some b =>
          match binaryRead b with
          | .error e => some { data with Fail := true, FailReason := e }
          | .ok _ =>
            match index buf 5 with
            | none => none
            | some t =>
              if t ≠ 20 then
                some { data with Fail := true, FailReason := expectingKexinit 20 t.val }
              else
                match slice buf 6 22 with
                | none => none
                | some c =>
                  readFieldsData buf host Field.all
                    ⟨22, 22, 0, { data with Cookie := copy data.Cookie c }⟩ := by
  rfl

theorem Inspect.decode_header (buf : List Byte) (data : SSHExchange) (host : GoString)
    (hlen : buf.length = maxSize) :
    Inspect.decode buf data host
      = if byteAt buf 5 ≠ 20 then
          some { data with Fail := true, FailReason := expectingKexinit 20 (byteAt buf 5).val }
        else
          (readFields buf host Field.all
            ⟨22, 22, 0, { data with Cookie := copy data.Cookie ((buf.drop 6).take 16) }⟩).map
            (fun c => c.data) := by
  have h4 : 0 + 4 ≤ buf.length := by rw [hlen]; decide
  have h0 : slice buf 0 4 = some ((buf.drop 0).take 4) := by
    rw [slice_of_le buf 0 4 (by omega) h4]
  have h6 : slice buf 6 22 = some ((buf.drop 6).take 16) := by
    rw [slice_of_le buf 6 22 (by omega) (by rw [hlen]; decide)]
  have h5 : index buf 5 = some (byteAt buf 5) :=
    index_of_byteAt buf 5 (by rw [hlen]; decide)
  rw [Inspect.decode_unfold]
  simp only [h0, binaryRead_slice buf 0 h4, h5, h6, readFieldsData_eq]

/-! ## The iteration on a buffer of `maxSize` bytes -/

theorem fieldEnd_succ (buf : List Byte) (k : Nat) :
    fieldEnd buf (k + 1) = fieldEnd buf k + 4 + lengthAt buf (fieldEnd buf k) := rfl

theorem fieldEnd_add_le (buf : List Byte) (k j : Nat) :
    fieldEnd buf k + 4 * j ≤ fieldEnd buf (k + j) := by
  induction j with
  | zero => simp
  | succ j ih =>
    have := fieldEnd_succ buf (k + j)
    rw [← Nat.add_assoc]
    omega

theorem readFields_ok (buf : List Byte) (host : GoString) (hlen : buf.length = maxSize)
    (fs : List Field) (k : Nat) (c : Cursor) (hstop : c.stop = fieldEnd buf k)
    (hin : fieldEnd buf (k + fs.length) ≤ maxSize) :
    ∃ c', readFields buf host fs c = some c' ∧ c'.stop = fieldEnd buf (k + fs.length)
      ∧ c'.data = fill buf fs k c.data := by
  induction fs generalizing k c with
  | nil => exact ⟨c, rfl, by simpa using hstop, rfl⟩
  | cons f fs ih =>
    have hmono := fieldEnd_add_le buf (k + 1) fs.length
    have hk : k + (f :: fs).length = k + 1 + fs.length := by simp; omega
    rw [hk] at hin ⊢
    have h1 : c.stop + 4 + lengthAt buf c.stop ≤ maxSize := by
      rw [hstop, ← fieldEnd_succ]; omega
    simp only [readFields, readNext_field buf c.begin c.stop c.nextLength c.data host hlen h1,
      Option.isSome_none, Bool.false_eq_true, if_false]
    obtain ⟨c', h, hs, hd⟩ := ih (k + 1)
      ⟨c.stop + 4, c.stop + 4 + lengthAt buf c.stop, lengthAt buf c.stop,
        c.data.set f (nameList ((buf.drop (c.stop + 4)).take (lengthAt buf c.stop)))⟩
      (by simp [hstop, fieldEnd_succ]) hin
    refine ⟨c', h, hs, ?_⟩
    rw [hd]
    simp [fill, fieldContent, hstop]

theorem readFields_panic (buf : List Byte) (host : GoString) (hlen : buf.length = maxSize)
    (fs : List Field) (k j : Nat) (c : Cursor) (hstop : c.stop = fieldEnd buf k)
    (hj : j + 1 < fs.length) (h1 : fieldEnd buf (k + j) + 4 ≤ maxSize)
    (h2 : maxSize < fieldEnd buf (k + j + 1) + 4) :
    readFields buf host fs c = none := by
  induction fs generalizing k j c with
  | nil => simp at hj
  | cons f fs ih =>
    cases j with
    | zero =>
      match fs, hj with
      | g :: fs, _ =>
        have hs4 : c.stop + 4 ≤ buf.length := by rw [hstop, hlen]; simpa using h1
        have h2' : maxSize < c.stop + 4 + lengthAt buf c.stop + 4 := by
          rw [hstop, ← fieldEnd_succ]; simpa using h2
        by_cases hov : maxSize < c.stop + 4 + lengthAt buf c.stop
        · simp only [readFields, readNext_overflow buf c.begin c.stop c.nextLength c.data host hs4 hov,
            Option.isSome_none, Bool.false_eq_true, if_false]
          rw [readNext_panic buf _ _ _ _ host (by rw [hlen]; omega)]
        · simp only [readFields, readNext_field buf c.begin c.stop c.nextLength c.data host hlen
            (by omega), Option.isSome_none, Bool.false_eq_true, if_false]
          rw [readNext_panic buf _ _ _ _ host (by rw [hlen]; omega)]
    | succ j =>
      have hmono := fieldEnd_add_le buf (k + 1) j
      have hkj : k + (j + 1) = k + 1 + j := by omega
      rw [hkj] at h1 h2
      have hin : c.stop + 4 + lengthAt buf c.stop ≤ maxSize := by
        rw [hstop, ← fieldEnd_succ]; omega
      simp only [readFields, readNext_field buf c.begin c.stop c.nextLength c.data host hlen hin,
        Option.isSome_none, Bool.false_eq_true, if_false]
      exact ih (k + 1) j _ (by simp [hstop, fieldEnd_succ]) (by simpa using hj) h1 h2

theorem readFields_last_overflow (buf : List Byte) (host : GoString)
    (hlen : buf.length = maxSize) (fs : List Field) (k j : Nat) (c : Cursor)
    (hstop : c.stop = fieldEnd buf k) (hj : j + 1 = fs.length)
    (h1 : fieldEnd buf (k + j) + 4 ≤ maxSize) (h2 : maxSize < fieldEnd buf (k + j + 1)) :
    ∃ c', readFields buf host fs c = some c' ∧ c'.stop = fieldEnd buf (k + j + 1)
      ∧ c'.data = failFill buf host fs k c.data := by
  induction fs generalizing k j c with
  | nil => simp at hj
  | cons f fs ih =>
    cases j with
    | zero =>
      match fs, hj with
      | [], _ =>
        have hs4 : c.stop + 4 ≤ buf.length := by rw [hstop, hlen]; simpa using h1
        have hov : maxSize < c.stop + 4 + lengthAt buf c.stop := by
          rw [hstop, ← fieldEnd_succ]; simpa using h2
        simp only [readFields, readNext_overflow buf c.begin c.stop c.nextLength c.data host hs4 hov,
          Option.isSome_none, Bool.false_eq_true, if_false]
        exact ⟨_, rfl, by simp [hstop, fieldEnd_succ], by simp [failFill, hstop, fieldEnd_succ]⟩
    | succ j =>
      match fs, hj with
      | g :: fs, hj =>
        have hmono := fieldEnd_add_le buf (k + 1) j
        have hkj : k + (j + 1) = k + 1 + j := by omega
        rw [hkj] at h1 h2 ⊢
        have hin : c.stop + 4 + lengthAt buf c.stop ≤ maxSize := by
          rw [hstop, ← fieldEnd_succ]; omega
        rw [readFields]
        simp only [readNext_field buf c.begin c.stop c.nextLength c.data host hlen hin,
          Option.isSome_none, Bool.false_eq_true, if_false]
        obtain ⟨c', h, hs, hd⟩ :=
          ih (k + 1) j
            ⟨c.stop + 4, c.stop + 4 + lengthAt buf c.stop, lengthAt buf c.stop,
              c.data.set f (nameList ((buf.drop (c.stop + 4)).take (lengthAt buf c.stop)))⟩
            (by simp [hstop, fieldEnd_succ]) (by simpa using hj) h1 h2
        refine ⟨c', h, hs, ?_⟩
        rw [hd]
        simp [failFill, fieldContent, hstop]

/-! ## `Inspect.decode` on a buffer of `maxSize` bytes -/

theorem Inspect.decode_ok (buf : List Byte) (data : SSHExchange) (host : GoString)
    (hlen : buf.length = maxSize) (h5 : byteAt buf 5 = 20)
    (hin : fieldEnd buf 10 ≤ maxSize) :
    Inspect.decode buf data host = some (fill buf Field.all 0 (withCookie buf data)) := by
  rw [Inspect.decode_header buf data host hlen, if_neg (by simp [h5])]
  obtain ⟨c', h, _, hd⟩ := readFields_ok buf host hlen Field.all 0
    ⟨22, 22, 0, withCookie buf data⟩ rfl hin
  simp only [withCookie] at h hd ⊢
  rw [h, Option.map_some', hd]

theorem Inspect.decode_panic (buf : List Byte) (data : SSHExchange) (host : GoString)
    (hlen : buf.length = maxSize) (h5 : byteAt buf 5 = 20) (j : Nat) (hj : j < 9)
    (h1 : fieldEnd buf j + 4 ≤ maxSize) (h2 : maxSize < fieldEnd buf (j + 1) + 4) :
    Inspect.decode buf data host = none := by
  rw [Inspect.decode_header buf data host hlen, if_neg (by simp [h5])]
  rw [readFields_panic buf host hlen Field.all 0 j _ rfl (by simp [Field.all]; omega)
    (by simpa using h1) (by simpa using h2)]
  rfl

theorem Inspect.decode_last_overflow (buf : List Byte) (data : SSHExchange)
    (host : GoString) (hlen : buf.length = maxSize) (h5 : byteAt buf 5 = 20)
    (h1 : fieldEnd buf 9 + 4 ≤ maxSize) (h2 : maxSize < fieldEnd buf 10) :
    Inspect.decode buf data host
      = some (failFill buf host Field.all 0 (withCookie buf data)) := by
  rw [Inspect.decode_header buf data host hlen, if_neg (by simp [h5])]
  obtain ⟨c', h, _, hd⟩ := readFields_last_overflow buf host hlen Field.all 0 9
    ⟨22, 22, 0, withCookie buf data⟩ rfl rfl (by simpa using h1) (by simpa using h2)
  simp only [withCookie] at h hd ⊢
  rw [h, Option.map_some', hd]

theorem bufAbort_length : bufAbort.length = maxSize := by
  simp only [bufAbort, pktAbort, List.length_append, List.length_replicate, List.length_cons,
    List.length_nil, maxSize]

theorem bufOverflow_length : bufOverflow.length = maxSize := by
  simp only [bufOverflow, pktOverflow, List.length_append, List.length_replicate, List.length_cons,
    List.length_nil, maxSize]

/-! ## The verbs of `fmt.Sprintf` -/

theorem digitValue_digitByte (d : Nat) (h : d < 16) : digitValue (digitByte d) = d := by
  unfold digitValue digitByte
  by_cases h10 : d < 10
  · have : (Fin.ofNat (48 + d) : Fin 256).val = 48 + d := by
      simp only [Fin.ofNat, Nat.succ_eq_add_one]; omega
    simp only [h10, if_true, this]
    rw [if_pos (by omega)]
    omega
  · have : (Fin.ofNat (87 + d) : Fin 256).val = 87 + d := by
      simp only [Fin.ofNat, Nat.succ_eq_add_one]; omega
    simp only [h10, if_false, this]
    rw [if_neg (by omega)]
    omega

theorem fmtDigits_spec (base : Nat) (hb : 2 ≤ base) (hb16 : base ≤ 16) (fuel : Nat) :
    ∀ (n : Nat) (acc : GoString), n < fuel →
      ∃ D, fmtDigits base fuel n acc = D ++ acc ∧
        ∀ v, D.foldl (fun v b => base * v + digitValue b) v = v * base ^ D.length + n := by
  induction fuel with
  | zero => intro n acc h; omega
  | succ fuel ih =>
    intro n acc hn
    have hmod : n % base < 16 := lt_of_lt_of_le (Nat.mod_lt _ (by omega)) hb16
    by_cases h0 : n / base = 0
    · have hlt : n < base := by
        rcases Nat.lt_or_ge n base with h | h
        · exact h
        · have := Nat.div_pos h (by omega); omega
      refine ⟨[digitByte (n % base)], by simp [fmtDigits, h0], ?_⟩
      intro v
      simp only [List.foldl_cons, List.foldl_nil, digitValue_digitByte _ hmod,
        List.length_singleton, pow_one]
      rw [Nat.mod_eq_of_lt hlt, Nat.mul_comm]
    · have hlt : n / base < fuel := by
        have : n / base < n := Nat.div_lt_self (by
          rcases Nat.eq_zero_or_pos n with h | h
          · simp [h] at h0
          · exact h) (by omega)
        omega
      obtain ⟨D, hD, hv⟩ := ih (n / base) (digitByte (n % base) :: acc) hlt
      refine ⟨D ++ [digitByte (n % base)], by simp [fmtDigits, h0, hD], ?_⟩
      intro v
      simp only [List.foldl_append, List.foldl_cons, List.foldl_nil, hv,
        digitValue_digitByte _ hmod, List.length_append, List.length_singleton, pow_succ]
      have := Nat.div_add_mod n base
      have key : base * (v * base ^ D.length + n / base) + n % base
          = v * (base ^ D.length * base) + (base * (n / base) + n % base) := by ring
      rw [key, this]

theorem parseDigits_fmtDec (n : Nat) : parseDigits 10 (fmtDec n) = n := by
  obtain ⟨D, hD, hv⟩ := fmtDigits_spec 10 (by decide) (by decide) (n + 1) n [] (by omega)
  simp only [parseDigits, fmtDec, hD, List.append_nil, hv, Nat.zero_mul, Nat.zero_add]

theorem parseDigits_fmtHex (n : Nat) : parseDigits 16 (fmtHex n) = n := by
  obtain ⟨D, hD, hv⟩ := fmtDigits_spec 16 (by decide) (by decide) (n + 1) n [] (by omega)
  simp only [parseDigits, fmtHex, hD, List.append_nil, hv, Nat.zero_mul, Nat.zero_add]

/-! ## The three outcomes of `Inspect.decode` on a KEXINIT packet -/

theorem exists_first_failure (P : Nat → Prop) (n : Nat) (h0 : P 0) (hn : ¬ P n) :
    ∃ j, j < n ∧ P j ∧ ¬ P (j + 1) := by
  induction n with
  | zero => exact absurd h0 hn
  | succ n ih =>
    by_cases h : P n
    · exact ⟨n, Nat.lt_succ_self n, h, hn⟩
    · obtain ⟨j, hj, h1, h2⟩ := ih h
      exact ⟨j, Nat.lt_succ_of_lt hj, h1, h2⟩

theorem Inspect.decode_cases (buf : List Byte) (data : SSHExchange) (host : GoString)
    (hlen : buf.length = maxSize) (h5 : byteAt buf 5 = 20) :
    (fieldEnd buf 10 ≤ maxSize ∧
        Inspect.decode buf data host = some (fill buf Field.all 0 (withCookie buf data))) ∨
      (fieldEnd buf 9 + 4 ≤ maxSize ∧ maxSize < fieldEnd buf 10 ∧
        Inspect.decode buf data host
          = some (failFill buf host Field.all 0 (withCookie buf data))) ∨
      (maxSize < fieldEnd buf 9 + 4 ∧ Inspect.decode buf data host = none) := by
  by_cases h10 : fieldEnd buf 10 ≤ maxSize
  · exact Or.inl ⟨h10, Inspect.decode_ok buf data host hlen h5 h10⟩
  · by_cases h9 : fieldEnd buf 9 + 4 ≤ maxSize
    · exact Or.inr (Or.inl ⟨h9, by omega,
        Inspect.decode_last_overflow buf data host hlen h5 h9 (by omega)⟩)
    · obtain ⟨j, hj, h1, h2⟩ :=
        exists_first_failure (fun k => fieldEnd buf k + 4 ≤ maxSize) 9
          (show fieldEnd buf 0 + 4 ≤ maxSize by simp [fieldEnd, maxSize]) h9
      exact Or.inr (Or.inr ⟨by omega,
        Inspect.decode_panic buf data host hlen h5 j hj h1 (by simpa using h2)⟩)

theorem fill_all (buf : List Byte) (d : SSHExchange) :
    fill buf Field.all 0 d
      = { d with
          KEXAlgorithms := nameList (fieldContent buf 0),
          ServerHostKeyAlgos := nameList (fieldContent buf 1),
          EncAlgosC2S := nameList (fieldContent buf 2),
          EncAlgosS2C := nameList (fieldContent buf 3),
          MACAlgosC2S := nameList (fieldContent buf 4),
          MACAlgosS2C := nameList (fieldContent buf 5),
          CompAlgosC2S := nameList (fieldContent buf 6),
          CompAlgosS2C := nameList (fieldContent buf 7),
          LanguagesC2S := nameList (fieldContent buf 8),
          LanguagesS2C := nameList (fieldContent buf 9) } := by
  simp only [Field.all, fill, SSHExchange.set, Nat.zero_add, Nat.reduceAdd]

theorem failFill_all (buf : List Byte) (host : GoString) (d : SSHExchange) :
    failFill buf host Field.all 0 d
      = { d with
          KEXAlgorithms := nameList (fieldContent buf 0),
          ServerHostKeyAlgos := nameList (fieldContent buf 1),
          EncAlgosC2S := nameList (fieldContent buf 2),
          EncAlgosS2C := nameList (fieldContent buf 3),
          MACAlgosC2S := nameList (fieldContent buf 4),
          MACAlgosS2C := nameList (fieldContent buf 5),
          CompAlgosC2S := nameList (fieldContent buf 6),
          CompAlgosS2C := nameList (fieldContent buf 7),
          LanguagesC2S := nameList (fieldContent buf 8),
          LanguagesS2C := [],
          Fail := true,
          FailReason := badServer host (fieldEnd buf 10) } := by
  simp only [Field.all, failFill, SSHExchange.set, Nat.zero_add, Nat.reduceAdd]

theorem bufSample_length : bufSample.length = maxSize := by
  simp only [bufSample, List.length_append, List.length_replicate, List.length_cons,
    List.length_nil, maxSize]

/-! ## Splitting, joining and re-encoding a name-list -/

theorem Split_ne_nil (s : GoString) (sep : Byte) : Split s sep ≠ [] := by
  cases s with
  | nil => simp [Split]
  | cons c cs =>
    rw [Split]
    split
    · simp
    · split <;> simp

theorem joinNames_cons_of_ne_nil (w : GoString) (ws : List GoString) (h : ws ≠ []) :
    joinNames (w :: ws) = w ++ 44 :: joinNames ws := by
  cases ws with
  | nil => exact absurd rfl h
  | cons v vs => rfl

theorem joinNames_cons_cons (c : Byte) (w : GoString) (ws : List GoString) :
    joinNames ((c :: w) :: ws) = c :: joinNames (w :: ws) := by
  cases ws with
  | nil => rfl
  | cons v vs => rfl

theorem joinNames_Split (s : GoString) : joinNames (Split s 44) = s := by
  induction s with
  | nil => rfl
  | cons c cs ih =>
    rw [Split]
    split
    · next h =>
      rw [joinNames_cons_of_ne_nil _ _ (Split_ne_nil cs 44), ih, h]
      rfl
    · split
      · next h => exact absurd h (Split_ne_nil cs 44)
      · next w ws h =>
        rw [joinNames_cons_cons, ← h, ih]

theorem joinNames_nameList (s : GoString) : joinNames (nameList s) = s := by
  unfold nameList
  split
  · next h => rw [h]; rfl
  · exact joinNames_Split s

theorem encodeUint32_lengthAt (buf : List Byte) (e : Nat) :
    encodeUint32 (lengthAt buf e)
      = [byteAt buf e, byteAt buf (e + 1), byteAt buf (e + 2), byteAt buf (e + 3)] := by
  have h0 := (byteAt buf e).isLt
  have h1 := (byteAt buf (e + 1)).isLt
  have h2 := (byteAt buf (e + 2)).isLt
  have h3 := (byteAt buf (e + 3)).isLt
  simp only [encodeUint32, lengthAt, List.cons.injEq, and_true]
  refine ⟨?_, ?_, ?_, ?_⟩ <;> apply Fin.ext <;>
    simp only [Fin.ofNat, Nat.succ_eq_add_one, Nat.reducePow, Nat.reduceAdd] <;> omega

theorem drop_take_glue (buf : List Byte) (a b c : Nat) (hab : a ≤ b) (hbc : b ≤ c) :
    (buf.drop a).take (b - a) ++ (buf.drop b).take (c - b) = (buf.drop a).take (c - a) := by
  have h1 : c - a = (b - a) + (c - b) := by omega
  have h2 : buf.drop b = (buf.drop a).drop (b - a) := by
    rw [List.drop_drop]; congr 1; omega
  rw [h1, List.take_add, h2]

theorem fieldContent_length (buf : List Byte) (k : Nat) (h : fieldEnd buf (k + 1) ≤ buf.length) :
    (fieldContent buf k).length = lengthAt buf (fieldEnd buf k) := by
  rw [fieldEnd_succ] at h
  simp only [fieldContent, List.length_take, List.length_drop]
  omega

theorem encodeNameList_field (buf : List Byte) (k : Nat)
    (h : fieldEnd buf (k + 1) ≤ buf.length) :
    encodeNameList (nameList (fieldContent buf k))
      = (buf.drop (fieldEnd buf k)).take (fieldEnd buf (k + 1) - fieldEnd buf k) := by
  have h' := h
  rw [fieldEnd_succ] at h'
  rw [encodeNameList, joinNames_nameList, fieldContent_length buf k h, encodeUint32_lengthAt,
    ← drop_take_four buf _ (by omega)]
  have e1 : (buf.drop (fieldEnd buf k)).take 4
      = (buf.drop (fieldEnd buf k)).take (fieldEnd buf k + 4 - fieldEnd buf k) := by
    congr 1; omega
  have e2 : fieldContent buf k
      = (buf.drop (fieldEnd buf k + 4)).take (fieldEnd buf (k + 1) - (fieldEnd buf k + 4)) := by
    rw [fieldContent, fieldEnd_succ]; congr 1; omega
  rw [e1, e2, drop_take_glue buf _ _ _ (by omega) (by rw [fieldEnd_succ]; omega)]

theorem span_succ (buf : List Byte) (k : Nat) (h : fieldEnd buf (k + 1) ≤ buf.length) :
    (buf.drop 22).take (fieldEnd buf k - 22) ++ encodeNameList (nameList (fieldContent buf k))
      = (buf.drop 22).take (fieldEnd buf (k + 1) - 22) := by
  have h0 := fieldEnd_add_le buf 0 k
  have h1 := fieldEnd_add_le buf k 1
  have h22 : fieldEnd buf 0 = 22 := rfl
  rw [Nat.zero_add] at h0
  rw [encodeNameList_field buf k h, drop_take_glue buf _ _ _ (by omega) (by omega)]

theorem Split_length (s : GoString) (sep : Byte) :
    (Split s sep).length = s.count sep + 1 := by
  induction s with
  | nil => rfl
  | cons c cs ih =>
    rw [Split]
    split
    · next h => simp [ih, h]
    · next h =>
      have hc : (c :: cs).count sep = cs.count sep := by
        rw [List.count_cons]; simp [h]
      split
      · next h' => exact absurd h' (Split_ne_nil cs sep)
      · next w ws h' =>
        rw [hc, ← ih, h']
        rfl

theorem Split_no_sep (s : GoString) (sep : Byte) : ∀ w ∈ Split s sep, sep ∉ w := by
  induction s with
  | nil => intro w hw; simp [Split] at hw; simp [hw]
  | cons c cs ih =>
    intro w hw
    rw [Split] at hw
    split at hw
    · rcases List.mem_cons.mp hw with h | h
      · simp [h]
      · exact ih w h
    · next hc =>
      split at hw
      · next h' => exact absurd h' (Split_ne_nil cs sep)
      · next v vs h' =>
        rw [h'] at ih
        rcases List.mem_cons.mp hw with h | h
        · rw [h]
          intro hmem
          rcases List.mem_cons.mp hmem with e | e
          · exact hc e.symm
          · exact ih v (List.mem_cons_self _ _) e
        · exact ih w (List.mem_cons_of_mem _ h)

/-! ## The cookie -/

theorem bufLastOverflow_length : bufLastOverflow.length = maxSize := by
  simp only [bufLastOverflow, List.length_append, List.length_replicate, List.length_cons,
    List.length_nil, maxSize]

theorem bufScenario_length : bufScenario.length = maxSize := by
  simp only [bufScenario, List.length_append, List.length_replicate, List.length_cons,
    List.length_nil, maxSize]

theorem cookie_length (buf : List Byte) (hlen : buf.length = maxSize) :
    ((buf.drop 6).take 16).length = 16 := by
  rw [List.length_take, List.length_drop, hlen]
  decide

theorem copy_cookie (buf cookie : List Byte) (hlen : buf.length = maxSize)
    (hck : cookie.length = 16) : copy cookie ((buf.drop 6).take 16) = (buf.drop 6).take 16 := by
  have h16 := cookie_length buf hlen
  have hd : cookie.drop ((buf.drop 6).take 16).length = [] :=
    List.drop_of_length_le (by omega)
  rw [copy, hd, hck, List.append_nil, List.take_take]
  simp

theorem cookie_getD (buf : List Byte) (i : Nat) (hi : i < 16) :
    ((buf.drop 6).take 16).getD i 0 = byteAt buf (6 + i) := by
  simp [byteAt, List.getD_eq_getElem?_getD, List.getElem?_take, hi]

/-! ## `Inspect` and its decoding part -/

theorem copy_length (dst src : List Byte) : (copy dst src).length = dst.length := by
  simp only [copy, List.length_append, List.length_take, List.length_drop]
  omega

theorem receive_length (p : List Byte) : (copy (List.replicate maxSize 0) p).length = maxSize := by
  rw [copy_length, List.length_replicate]

theorem banner_slice (p : List Byte) :
    slice (copy (List.replicate 255 0) p) 0 (min 255 p.length) = some (p.take 255) := by
  have hl : (p.take 255).length = min 255 p.length := List.length_take _ _
  rw [slice_of_le _ _ _ (Nat.zero_le _)
    (by rw [copy_length, List.length_replicate]; exact Nat.min_le_left _ _)]
  simp only [copy, List.length_replicate, List.drop_zero, Nat.sub_zero]
  rw [← hl, List.take_left']
  rfl

/-- Once the connection is made, the banner `p` received, the own banner written and the
packet `q` received, `Inspect` is its decoding part on a buffer of `maxSize` bytes (`q`,
cut or filled with zero bytes) and on a record that has not failed. -/
theorem Inspect_eq_decode (host port p q : GoString) (conn : Conn) (hd : conn.dial = none)
    (hb : conn.banner = .ok p) (hw : conn.write = none) (hk : conn.kex = .ok q) :
    Inspect host port conn
      = Inspect.decode (copy (List.replicate maxSize 0) q)
          { SSHExchange.zero with Server := host, Port := port, ProtocolVersion := p.take 255 }
          host := by
  simp only [Inspect, hd, hb, hw, hk, banner_slice]

theorem copy_short (q : List Byte) (n : Nat) (h : q.length ≤ n) :
    copy (List.replicate n 0) q = q ++ List.replicate (n - q.length) 0 := by
  rw [copy, List.length_replicate, List.take_of_length_le h, List.drop_replicate]

theorem receive_pktAbort : copy (List.replicate maxSize 0) pktAbort = bufAbort := by
  rw [copy_short pktAbort maxSize (by decide)]
  rfl

theorem receive_pktOverflow : copy (List.replicate maxSize 0) pktOverflow = bufOverflow := by
  rw [copy_short pktOverflow maxSize (by decide)]
  rfl

/-! ## What a returning call of `readNext` leaves behind -/

theorem slice_four (buf : List Byte) (stop : Nat) (b : List Byte)
    (h : slice buf stop (stop + 4) = some b) :
    stop + 4 ≤ buf.length ∧ b.length = 4 ∧ binaryRead b = .ok (lengthAt buf stop) := by
  by_cases hle : stop + 4 ≤ buf.length
  · rw [slice_of_le buf stop (stop + 4) (by omega) hle] at h
    have hb : b = (buf.drop stop).take 4 := by
      rw [← Option.some.inj h]; simp
    refine ⟨hle, ?_, ?_⟩
    · rw [hb, drop_take_four buf stop hle]; rfl
    · rw [hb]; exact binaryRead_slice buf stop hle
  · rw [slice_of_gt buf stop (stop + 4) (by omega)] at h
    simp at h

theorem readNext_some (buf : List Byte) (begin stop nextLength : Nat) (data : SSHExchange)
    (host : GoString) (r : ReadState)
    (h : readNext buf begin stop nextLength data host = some r) :
    stop + 4 ≤ buf.length ∧ r.err = none ∧ r.begin = stop + 4 ∧
      r.nextLength = lengthAt buf stop ∧ r.stop = stop + 4 + lengthAt buf stop ∧
      (r.data = data ∨
        (maxSize < r.stop ∧
          r.data = { data with Fail := true, FailReason := badServer host r.stop })) := by
  by_cases hle : stop + 4 ≤ buf.length
  · have hs : slice buf stop (stop + 4) = some ((buf.drop stop).take 4) := by
      rw [slice_of_le buf stop (stop + 4) (by omega) hle]; simp
    simp only [readNext, hs, binaryRead_slice buf stop hle] at h
    split at h
    · next hov =>
      rw [← Option.some.inj h]
      exact ⟨hle, rfl, rfl, rfl, rfl, Or.inr ⟨hov, rfl⟩⟩
    · split at h
      · split at h
        · simp at h
        · rw [← Option.some.inj h]
          exact ⟨hle, rfl, rfl, rfl, rfl, Or.inl rfl⟩
      · rw [← Option.some.inj h]
        exact ⟨hle, rfl, rfl, rfl, rfl, Or.inl rfl⟩
  · rw [readNext_panic buf begin stop nextLength data host (by omega)] at h
    simp at h

theorem readNext_returns (buf : List Byte) (begin stop nextLength : Nat) (data : SSHExchange)
    (host : GoString) (hlen : buf.length = maxSize) (h4 : stop + 4 ≤ maxSize) :
    ∃ r, readNext buf begin stop nextLength data host = some r := by
  by_cases hov : maxSize < stop + 4 + lengthAt buf stop
  · exact ⟨_, readNext_overflow buf begin stop nextLength data host (by omega) hov⟩
  · exact ⟨_, readNext_field buf begin stop nextLength data host hlen (by omega)⟩

theorem Inspect.decode_failure (buf : List Byte) (data d : SSHExchange) (host : GoString)
    (hlen : buf.length = maxSize) (hdec : Inspect.decode buf data host = some d)
    (hfail : d.Fail = true) :
    data.Fail = true ∨
      (byteAt buf 5 ≠ 20 ∧ d.FailReason = expectingKexinit 20 (byteAt buf 5).val) ∨
      (byteAt buf 5 = 20 ∧ fieldEnd buf 9 + 4 ≤ maxSize ∧ maxSize < fieldEnd buf 10 ∧
        d.FailReason = badServer host (fieldEnd buf 10)) := by
  by_cases h5 : byteAt buf 5 = 20
  · rcases Inspect.decode_cases buf data host hlen h5 with ⟨_, h⟩ | ⟨h9, h10, h⟩ | ⟨_, h⟩
    · rw [hdec, fill_all] at h
      rw [Option.some.inj h] at hfail
      exact Or.inl hfail
    · rw [hdec, failFill_all] at h
      rw [Option.some.inj h]
      exact Or.inr (Or.inr ⟨h5, h9, h10, rfl⟩)
    · rw [hdec] at h
      simp at h
  · rw [Inspect.decode_header buf data host hlen, if_pos h5] at hdec
    rw [← Option.some.inj hdec]
    exact Or.inr (Or.inl ⟨h5, rfl⟩)

theorem Inspect.decode_success (buf : List Byte) (data d : SSHExchange) (host : GoString)
    (hlen : buf.length = maxSize) (hdec : Inspect.decode buf data host = some d)
    (hok : d.Fail = false) :
    byteAt buf 5 = 20 ∧ fieldEnd buf 10 ≤ maxSize ∧
      d = fill buf Field.all 0 (withCookie buf data) := by
  by_cases h5 : byteAt buf 5 = 20
  · rcases Inspect.decode_cases buf data host hlen h5 with ⟨h10, h⟩ | ⟨_, _, h⟩ | ⟨_, h⟩
    · rw [hdec] at h
      exact ⟨h5, h10, Option.some.inj h⟩
    · rw [hdec, failFill_all] at h
      rw [Option.some.inj h] at hok
      simp at hok
    · rw [hdec] at h
      simp at h
  · rw [Inspect.decode_header buf data host hlen, if_pos h5] at hdec
    rw [← Option.some.inj hdec] at hok
    simp at hok

/-! ## The cursor -/

theorem readFieldsTrace_snd (buf : List Byte) (host : GoString) (fs : List Field)
    (c : Cursor) : (readFieldsTrace buf host fs c).2 = readFields buf host fs c := by
  induction fs generalizing c with
  | nil => rfl
  | cons f fs ih =>
    simp only [readFieldsTrace, readFields]
    cases readNext buf c.begin c.stop c.nextLength c.data host with
    | none => rfl
    | some r =>
      by_cases he : r.err.isSome
      · simp [he]
      · simp [he, ih]

theorem readFieldsTrace_chain (buf : List Byte) (host : GoString) (fs : List Field)
    (c : Cursor) (x : Nat) :
    List.Chain Forward (x, c.stop) (readFieldsTrace buf host fs c).1 := by
  induction fs generalizing c x with
  | nil => exact List.Chain.nil
  | cons f fs ih =>
    simp only [readFieldsTrace]
    cases hr : readNext buf c.begin c.stop c.nextLength c.data host with
    | none => exact List.Chain.nil
    | some r =>
      obtain ⟨_, _, hb, _, hs, _⟩ :=
        readNext_some buf c.begin c.stop c.nextLength c.data host r hr
      have hfw : Forward (x, c.stop) (r.begin, r.stop) :=
        ⟨hb, by simp only [hb, hs]; omega, by simp only [hs]; omega⟩
      by_cases he : r.err.isSome
      · simp only [he, if_true]
        exact List.Chain.cons hfw List.Chain.nil
      · simp only [he, Bool.false_eq_true, if_false]
        exact List.Chain.cons hfw
          (ih ⟨r.begin, r.stop, r.nextLength, r.data.set f r.result⟩ r.begin)

theorem readFieldsTrace_ok (buf : List Byte) (host : GoString) (hlen : buf.length = maxSize)
    (fs : List Field) (k : Nat) (c : Cursor) (hstop : c.stop = fieldEnd buf k)
    (hin : fieldEnd buf (k + fs.length) ≤ maxSize) :
    (readFieldsTrace buf host fs c).1
      = (List.range fs.length).map
          (fun i => (fieldEnd buf (k + i) + 4, fieldEnd buf (k + i + 1))) := by
  induction fs generalizing k c with
  | nil => rfl
  | cons f fs ih =>
    have hmono := fieldEnd_add_le buf (k + 1) fs.length
    have hk : k + (f :: fs).length = k + 1 + fs.length := by simp; omega
    rw [hk] at hin
    have h1 : c.stop + 4 + lengthAt buf c.stop ≤ maxSize := by
      rw [hstop, ← fieldEnd_succ]; omega
    simp only [readFieldsTrace,
      readNext_field buf c.begin c.stop c.nextLength c.data host hlen h1,
      Option.isSome_none, Bool.false_eq_true, if_false, List.length_cons]
    rw [ih (k + 1) _ (by simp [hstop, fieldEnd_succ]) hin, List.range_succ_eq_map,
      List.map_cons, List.map_map]
    simp only [hstop, fieldEnd_succ, Nat.add_zero, List.cons.injEq, true_and]
    apply List.map_congr_left
    intro i _
    simp only [Function.comp, Nat.succ_eq_add_one]
    rw [show k + (i + 1) = k + 1 + i by omega]

/-! ## Buffers that agree on the bytes that are read -/

theorem bufSampleNoise_length : bufSampleNoise.length = maxSize := by
  simp only [bufSampleNoise, List.length_append, List.length_replicate, List.length_cons,
    List.length_nil, maxSize]

theorem getElem?_congr (b1 b2 : List Byte) (hl : b1.length = b2.length) (j : Nat)
    (h : byteAt b1 j = byteAt b2 j) : b1[j]? = b2[j]? := by
  by_cases hj : j < b1.length
  · have hj2 : j < b2.length := by omega
    simp only [byteAt, List.getD_eq_getElem?_getD, List.getElem?_eq_getElem hj,
      List.getElem?_eq_getElem hj2, Option.getD_some] at h
    rw [List.getElem?_eq_getElem hj, List.getElem?_eq_getElem hj2, h]
  · rw [List.getElem?_eq_none (by omega), List.getElem?_eq_none (by omega)]

theorem drop_take_congr (b1 b2 : List Byte) (hl : b1.length = b2.length) (a n : Nat)
    (h : ∀ i, a ≤ i → i < a + n → byteAt b1 i = byteAt b2 i) :
    (b1.drop a).take n = (b2.drop a).take n := by
  apply List.ext_getElem?
  intro i
  by_cases hi : i < n
  · simp only [List.getElem?_take, hi, if_true, List.getElem?_drop]
    exact getElem?_congr b1 b2 hl (a + i) (h (a + i) (by omega) (by omega))
  · simp only [List.getElem?_take, hi, if_false]

theorem lengthAt_congr (b1 b2 : List Byte) (e : Nat)
    (h : ∀ i, e ≤ i → i < e + 4 → byteAt b1 i = byteAt b2 i) :
    lengthAt b1 e = lengthAt b2 e := by
  simp only [lengthAt, h e (by omega) (by omega), h (e + 1) (by omega) (by omega),
    h (e + 2) (by omega) (by omega), h (e + 3) (by omega) (by omega)]

theorem fieldEnd_mono (buf : List Byte) (k n : Nat) (h : k ≤ n) :
    fieldEnd buf k ≤ fieldEnd buf n := by
  have := fieldEnd_add_le buf k (n - k)
  rw [show k + (n - k) = n by omega] at this
  omega

theorem fieldEnd_congr (b1 b2 : List Byte) (n : Nat)
    (h : ∀ i, 22 ≤ i → i < fieldEnd b1 n → byteAt b1 i = byteAt b2 i) :
    ∀ k, k ≤ n → fieldEnd b1 k = fieldEnd b2 k := by
  intro k
  induction k with
  | zero => intro _; rfl
  | succ k ih =>
    intro hk
    have e := ih (by omega)
    have h0 : fieldEnd b1 0 ≤ fieldEnd b1 k := fieldEnd_mono b1 0 k (by omega)
    have h22 : fieldEnd b1 0 = 22 := rfl
    have h1 : fieldEnd b1 (k + 1) ≤ fieldEnd b1 n := fieldEnd_mono b1 (k + 1) n hk
    have hs := fieldEnd_succ b1 k
    have hl : lengthAt b1 (fieldEnd b1 k) = lengthAt b2 (fieldEnd b1 k) :=
      lengthAt_congr b1 b2 _ (fun i hi1 hi2 => h i (by omega) (by omega))
    rw [fieldEnd_succ, fieldEnd_succ, ← e, hl]

theorem fieldContent_congr (b1 b2 : List Byte) (hl : b1.length = b2.length) (n : Nat)
    (h : ∀ i, 22 ≤ i → i < fieldEnd b1 n → byteAt b1 i = byteAt b2 i) :
    ∀ k, k < n → fieldContent b1 k = fieldContent b2 k := by
  intro k hk
  have e := fieldEnd_congr b1 b2 n h k (by omega)
  have e1 := fieldEnd_congr b1 b2 n h (k + 1) (by omega)
  have h0 : fieldEnd b1 0 ≤ fieldEnd b1 k := fieldEnd_mono b1 0 k (by omega)
  have h22 : fieldEnd b1 0 = 22 := rfl
  have h1 : fieldEnd b1 (k + 1) ≤ fieldEnd b1 n := fieldEnd_mono b1 (k + 1) n hk
  have hs := fieldEnd_succ b1 k
  have hlen : lengthAt b1 (fieldEnd b1 k) = lengthAt b2 (fieldEnd b1 k) := by
    rw [fieldEnd_succ, fieldEnd_succ, ← e] at e1
    omega
  rw [fieldContent, fieldContent, ← e, ← hlen]
  exact drop_take_congr b1 b2 hl _ _ (fun i hi1 hi2 => h i (by omega) (by omega))

/-! ## When `Inspect.decode` aborts -/

theorem Inspect.decode_eq_none_iff (buf : List Byte) (data : SSHExchange) (host : GoString)
    (hlen : buf.length = maxSize) (h5 : byteAt buf 5 = 20) :
    Inspect.decode buf data host = none ↔ maxSize < fieldEnd buf 9 + 4 := by
  have h9 : fieldEnd buf 9 + 4 * 1 ≤ fieldEnd buf 10 := fieldEnd_add_le buf 9 1
  rcases Inspect.decode_cases buf data host hlen h5 with ⟨a10, a⟩ | ⟨a9, _, a⟩ | ⟨a9, a⟩
  · rw [a]
    exact ⟨fun h => by simp at h, fun h => by omega⟩
  · rw [a]
    exact ⟨fun h => by simp at h, fun h => by omega⟩
  · rw [a]
    exact ⟨fun _ => a9, fun _ => rfl⟩

theorem bufSecondOverflow_length : bufSecondOverflow.length = maxSize := by
  simp only [bufSecondOverflow, pktSecondOverflow, List.length_append, List.length_replicate,
    List.length_cons, List.length_nil, maxSize]

theorem receive_pktSecondOverflow :
    copy (List.replicate maxSize 0) pktSecondOverflow = bufSecondOverflow := by
  rw [copy_short pktSecondOverflow maxSize (by decide)]
  rfl

theorem bufCookieOverflow_length : bufCookieOverflow.length = maxSize := by
  simp only [bufCookieOverflow, pktCookieOverflow, List.length_append, List.length_replicate,
    List.length_cons, List.length_nil, maxSize]

theorem receive_pktCookieOverflow :
    copy (List.replicate maxSize 0) pktCookieOverflow = bufCookieOverflow := by
  rw [copy_short pktCookieOverflow maxSize (by decide)]
  rfl

/-! ## The cookie in the records that are returned -/

/-- On a 35000-byte buffer whose byte at offset 5 is 20, the name-list part of
`Inspect` starts with the cursor at offset 22 on a record whose `Cookie` is the 16 bytes
at offsets 6 to 21; every record the decoding part returns, failed or not, has that
`Cookie`, and its first list is the one whose length is held by offsets 22 to 25 and
whose content starts at offset 26. -/
theorem Inspect.decode_cookie (buf : List Byte) (data : SSHExchange) (host : GoString)
    (hlen : buf.length = 35000) (h5 : byteAt buf 5 = 20) (hck : data.Cookie.length = 16) :
    Inspect.decode buf data host
        = (readFields buf host Field.all
            ⟨22, 22, 0, { data with Cookie := (buf.drop 6).take 16 }⟩).map (fun c => c.data) ∧
      ∀ d, Inspect.decode buf data host = some d →
        d.Cookie.length = 16 ∧ (∀ i, i < 16 → d.Cookie.getD i 0 = byteAt buf (6 + i)) ∧
        26 + lengthAt buf 22 ≤ 35000 ∧
        d.KEXAlgorithms = nameList ((buf.drop 26).take (lengthAt buf 22)) := by
  have hlen' : buf.length = maxSize := hlen
  have hc := copy_cookie buf data.Cookie hlen' hck
  have h16 := cookie_length buf hlen'
  have h1 : fieldEnd buf 1 + 4 * 8 ≤ fieldEnd buf 9 := fieldEnd_add_le buf 1 8
  have h9' : fieldEnd buf 9 + 4 * 1 ≤ fieldEnd buf 10 := fieldEnd_add_le buf 9 1
  have h1' : fieldEnd buf 1 = 26 + lengthAt buf 22 := rfl
  refine ⟨by rw [Inspect.decode_header buf data host hlen', if_neg (by simp [h5]), hc], ?_⟩
  intro d hd
  rcases Inspect.decode_cases buf data host hlen' h5 with ⟨h10, h⟩ | ⟨h9, _, h⟩ | ⟨_, h⟩
  · rw [hd, fill_all, withCookie, hc] at h
    rw [Option.some.inj h]
    exact ⟨h16, fun i hi => cookie_getD buf i hi, by simp only [maxSize] at h10; omega, rfl⟩
  · rw [hd, failFill_all, withCookie, hc] at h
    rw [Option.some.inj h]
    exact ⟨h16, fun i hi => cookie_getD buf i hi, by simp only [maxSize] at h9; omega, rfl⟩
  · rw [hd] at h
    simp at h

/-- On the packet `bufLastOverflow`, whose tenth name-list fails the bounds check, the
record returned has `Fail` true and the cookie of the packet. -/
theorem Inspect.decode_cookie_last_overflow :
    ∃ d, Inspect.decode bufLastOverflow SSHExchange.zero (lit "host") = some d ∧
      d.Fail = true ∧ d.Cookie.length = 16 ∧
      (∀ i, i < 16 → d.Cookie.getD i 0 = byteAt bufLastOverflow (6 + i)) ∧
      byteAt bufLastOverflow 6 = 1 ∧ byteAt bufLastOverflow 21 = 16 := by
  have h := Inspect.decode_last_overflow bufLastOverflow SSHExchange.zero (lit "host")
    bufLastOverflow_length (by decide) (by decide) (by decide)
  have h8 := (Inspect.decode_cookie bufLastOverflow SSHExchange.zero (lit "host")
    bufLastOverflow_length (by decide) (by decide)).2 _ h
  exact ⟨_, h, by rw [failFill_all], h8.1, h8.2.1, by decide, by decide⟩

/-! ## The claims -/

/-- C1 (fails on the code): on the 35000-byte buffer `bufAbort`, whose first name-list is
accepted by the bounds check with end offset 35000, the decoding part of `Inspect`
returns no record: the slice `buf[35000:35004]` of the next `readNext` is out of range.
A peer that sends the 26 bytes `pktAbort` as its KEXINIT packet makes `Inspect` abort. -/
theorem C1_decode_aborts :
    bufAbort.length = 35000 ∧ byteAt bufAbort 5 = 20 ∧ fieldEnd bufAbort 1 = 35000 ∧
      slice bufAbort 35000 35004 = none ∧
      Inspect.decode bufAbort SSHExchange.zero (lit "host") = none ∧
      Inspect (lit "host") (lit "22") (peer pktAbort) = none := by
  refine ⟨bufAbort_length, by decide, by decide, ?_, ?_, ?_⟩
  · exact slice_of_gt _ _ _ (by rw [bufAbort_length]; decide)
  · exact Inspect.decode_panic _ _ _ bufAbort_length (by decide) 0 (by decide) (by decide)
      (by decide)
  · rw [Inspect_eq_decode _ _ _ pktAbort (peer pktAbort) rfl rfl rfl rfl, receive_pktAbort]
    exact Inspect.decode_panic _ _ _ bufAbort_length (by decide) 0 (by decide) (by decide)
      (by decide)

/-- C2 (fails on the code): on the 35000-byte buffer `bufOverflow`, whose first name-list
declares a length that puts its end beyond 35000, `readNext` sets `Fail` but returns a
nil error, and the decoding part of `Inspect` goes on to the next `readNext`, whose slice
is out of range: no record is returned. A peer that sends the 26 bytes `pktOverflow` as
its KEXINIT packet makes `Inspect` abort. -/
theorem C2_overflow_aborts :
    bufOverflow.length = 35000 ∧ byteAt bufOverflow 5 = 20 ∧
      35000 < 22 + 4 + lengthAt bufOverflow 22 ∧
      (readNext bufOverflow 22 22 0 SSHExchange.zero (lit "host")).map
          (fun r => (r.data.Fail, r.err, r.stop)) = some (true, none, 4294967321) ∧
      Inspect.decode bufOverflow SSHExchange.zero (lit "host") = none ∧
      Inspect (lit "host") (lit "22") (peer pktOverflow) = none := by
  refine ⟨bufOverflow_length, by decide, by decide, ?_, ?_, ?_⟩
  · rw [readNext_overflow _ _ _ _ _ _ (by rw [bufOverflow_length]; decide) (by decide)]
    decide
  · exact Inspect.decode_panic _ _ _ bufOverflow_length (by decide) 0 (by decide) (by decide)
      (by decide)
  · rw [Inspect_eq_decode _ _ _ pktOverflow (peer pktOverflow) rfl rfl rfl rfl,
      receive_pktOverflow]
    exact Inspect.decode_panic _ _ _ bufOverflow_length (by decide) 0 (by decide) (by decide)
      (by decide)

/-- C3: on a 35000-byte buffer whose byte at offset 5 is not 20, the decoding part of
`Inspect` returns the record it was given with only `Fail` set to true and `FailReason`
set to the text "Expecting an SSH_MSG_KEXINIT (0x14), but got 0x" followed by the
hexadecimal digits of that byte (which denote the value of the byte); the ten
algorithm lists are as they were, so all empty when they were empty before. -/
theorem C3_wrong_message_type (buf : List Byte) (data : SSHExchange) (host : GoString)
    (hlen : buf.length = 35000) (h5 : byteAt buf 5 ≠ 20) :
    ∃ d, Inspect.decode buf data host = some d ∧ d.Fail = true ∧
      d.FailReason
        = lit "Expecting an SSH_MSG_KEXINIT (0x14), but got 0x" ++ fmtHex (byteAt buf 5).val ∧
      parseDigits 16 (d.FailReason.drop 47) = (byteAt buf 5).val ∧
      d = { data with Fail := true, FailReason := d.FailReason } ∧
      (∀ f, d.get f = data.get f) ∧
      ((∀ f, data.get f = []) → ∀ f, d.get f = []) := by
  have hfmt : expectingKexinit 20 (byteAt buf 5).val
      = lit "Expecting an SSH_MSG_KEXINIT (0x14), but got 0x" ++ fmtHex (byteAt buf 5).val := by
    have : lit "Expecting an SSH_MSG_KEXINIT (0x" ++ fmtHex 20 ++ lit "), but got 0x"
        = lit "Expecting an SSH_MSG_KEXINIT (0x14), but got 0x" := by decide
    rw [expectingKexinit, this]
  have hl : (lit "Expecting an SSH_MSG_KEXINIT (0x14), but got 0x").length = 47 := by decide
  refine ⟨_, by rw [Inspect.decode_header buf data host hlen, if_pos h5], rfl, hfmt, ?_, rfl,
    ?_, ?_⟩
  · show parseDigits 16 ((expectingKexinit 20 (byteAt buf 5).val).drop 47) = _
    rw [hfmt, List.drop_left' hl, parseDigits_fmtHex]
  · intro f; cases f <;> rfl
  · intro h f; rw [← h f]; cases f <;> rfl

/-- C3 holds of the all-zero buffer. -/
theorem C3_wrong_message_type_witness :
    ∃ d, Inspect.decode (List.replicate 35000 0) SSHExchange.zero (lit "host") = some d ∧
      d.Fail = true ∧ d.FailReason = lit "Expecting an SSH_MSG_KEXINIT (0x14), but got 0x0" ∧
      ∀ f, d.get f = [] := by
  obtain ⟨d, h, hf, hr, _, _, _, he⟩ :=
    C3_wrong_message_type (List.replicate 35000 0) SSHExchange.zero (lit "host")
      (List.length_replicate _ _) (by decide)
  exact ⟨d, h, hf, by rw [hr]; decide, he (fun f => by cases f <;> rfl)⟩

/-- C4: on a 35000-byte buffer with message-type byte 20 in which each of the ten
length-prefixed name-lists, laid out one after the other from offset 22, ends within
the buffer, the decoding part of `Inspect` returns a record with `Fail` false (as it was)
whose ten list fields hold, in the order of the record, the names of the first to tenth
name-list: the pieces of its content between the commas, none for an empty content. -/
theorem C4_all_fields_decoded (buf : List Byte) (data : SSHExchange) (host : GoString)
    (hlen : buf.length = 35000) (h5 : byteAt buf 5 = 20) (hfail : data.Fail = false)
    (hin : ∀ k, k < 10 → fieldEnd buf (k + 1) ≤ 35000) :
    ∃ d, Inspect.decode buf data host = some d ∧ d.Fail = false ∧
      d.KEXAlgorithms = nameList (fieldContent buf 0) ∧
      d.ServerHostKeyAlgos = nameList (fieldContent buf 1) ∧
      d.EncAlgosC2S = nameList (fieldContent buf 2) ∧
      d.EncAlgosS2C = nameList (fieldContent buf 3) ∧
      d.MACAlgosC2S = nameList (fieldContent buf 4) ∧
      d.MACAlgosS2C = nameList (fieldContent buf 5) ∧
      d.CompAlgosC2S = nameList (fieldContent buf 6) ∧
      d.CompAlgosS2C = nameList (fieldContent buf 7) ∧
      d.LanguagesC2S = nameList (fieldContent buf 8) ∧
      d.LanguagesS2C = nameList (fieldContent buf 9) := by
  refine ⟨_, Inspect.decode_ok buf data host hlen h5 (hin 9 (by decide)), ?_⟩
  rw [fill_all]
  exact ⟨hfail, rfl, rfl, rfl, rfl, rfl, rfl, rfl, rfl, rfl, rfl⟩

/-- C4 holds of the packet `bufSample`. -/
theorem C4_all_fields_decoded_witness :
    ∃ d, Inspect.decode bufSample SSHExchange.zero (lit "host") = some d ∧ d.Fail = false ∧
      d.KEXAlgorithms = [lit "a", lit "b", lit "c"] ∧
      d.ServerHostKeyAlgos = [lit "aes256-ctr"] ∧
      d.EncAlgosC2S = [] ∧ d.LanguagesS2C = [] := by
  obtain ⟨d, h, hf, h1, h2, h3, _, _, _, _, _, _, h10⟩ :=
    C4_all_fields_decoded bufSample SSHExchange.zero (lit "host") bufSample_length
      (by decide) rfl (by decide)
  exact ⟨d, h, hf, by rw [h1]; decide, by rw [h2]; decide, by rw [h3]; decide,
    by rw [h10]; decide⟩

/-- C5: when the decoding part of `Inspect` returns a record with `Fail` false on a
35000-byte buffer, the ten name-lists end within the buffer, and the encodings of the ten
decoded lists (each: the 4-byte big-endian length of its comma-joined names, then the
comma-joined names), concatenated in the order of the record, are exactly the bytes of
the buffer from offset 22 to the end offset of the tenth name-list. -/
theorem C5_round_trip (buf : List Byte) (data d : SSHExchange) (host : GoString)
    (hlen : buf.length = 35000) (hdec : Inspect.decode buf data host = some d)
    (hok : d.Fail = false) :
    fieldEnd buf 10 ≤ 35000 ∧
      encodeNameList d.KEXAlgorithms ++ encodeNameList d.ServerHostKeyAlgos
        ++ encodeNameList d.EncAlgosC2S ++ encodeNameList d.EncAlgosS2C
        ++ encodeNameList d.MACAlgosC2S ++ encodeNameList d.MACAlgosS2C
        ++ encodeNameList d.CompAlgosC2S ++ encodeNameList d.CompAlgosS2C
        ++ encodeNameList d.LanguagesC2S ++ encodeNameList d.LanguagesS2C
        = (buf.drop 22).take (fieldEnd buf 10 - 22) := by
  have hlen' : buf.length = maxSize := hlen
  by_cases h5 : byteAt buf 5 = 20
  · rcases Inspect.decode_cases buf data host hlen' h5 with ⟨h10, h⟩ | ⟨_, _, h⟩ | ⟨_, h⟩
    · rw [hdec, fill_all] at h
      have hd := (Option.some.inj h)
      have hin : ∀ k, k < 10 → fieldEnd buf (k + 1) ≤ buf.length := by
        intro k hk
        have := fieldEnd_add_le buf (k + 1) (9 - k)
        have e : k + 1 + (9 - k) = 10 := by omega
        rw [e] at this
        rw [hlen']; omega
      refine ⟨h10, ?_⟩
      rw [hd]
      simp only
      rw [← span_succ buf 9 (hin 9 (by decide)), ← span_succ buf 8 (hin 8 (by decide)),
        ← span_succ buf 7 (hin 7 (by decide)), ← span_succ buf 6 (hin 6 (by decide)),
        ← span_succ buf 5 (hin 5 (by decide)), ← span_succ buf 4 (hin 4 (by decide)),
        ← span_succ buf 3 (hin 3 (by decide)), ← span_succ buf 2 (hin 2 (by decide)),
        ← span_succ buf 1 (hin 1 (by decide)), ← span_succ buf 0 (hin 0 (by decide))]
      simp [fieldEnd]
    · rw [hdec, failFill_all] at h
      rw [Option.some.inj h] at hok
      simp at hok
    · rw [hdec] at h
      simp at h
  · rw [Inspect.decode_header buf data host hlen', if_pos h5] at hdec
    rw [← Option.some.inj hdec] at hok
    simp at hok

/-- C5 holds of the packet `bufSample`, whose ten name-lists occupy offsets 22 to 76. -/
theorem C5_round_trip_witness :
    ∃ d, Inspect.decode bufSample SSHExchange.zero (lit "host") = some d ∧ d.Fail = false ∧
      fieldEnd bufSample 10 = 77 ∧
      encodeNameList d.KEXAlgorithms ++ encodeNameList d.ServerHostKeyAlgos
        ++ encodeNameList d.EncAlgosC2S ++ encodeNameList d.EncAlgosS2C
        ++ encodeNameList d.MACAlgosC2S ++ encodeNameList d.MACAlgosS2C
        ++ encodeNameList d.CompAlgosC2S ++ encodeNameList d.CompAlgosS2C
        ++ encodeNameList d.LanguagesC2S ++ encodeNameList d.LanguagesS2C
        = (bufSample.drop 22).take (fieldEnd bufSample 10 - 22) := by
  have h := Inspect.decode_ok bufSample SSHExchange.zero (lit "host") bufSample_length
    (by decide) (by decide)
  exact ⟨_, h, by rw [fill_all]; rfl, by decide,
    (C5_round_trip bufSample SSHExchange.zero _ (lit "host") bufSample_length h
      (by rw [fill_all]; rfl)).2⟩

/-- C6: when the name-list at the cursor lies within the 35000-byte buffer and its content
`s` is not empty, `readNext` returns without error the split of `s` at its commas: one
more name than `s` has commas, no name holding a comma, and the names joined by commas
in their order being `s` again. The content "a,b,c" gives the names "a", "b", "c" and the
content "aes256-ctr" the single name "aes256-ctr". -/
theorem C6_split_at_commas (buf : List Byte) (begin stop nextLength : Nat)
    (data : SSHExchange) (host s : GoString) (hlen : buf.length = 35000)
    (hin : stop + 4 + lengthAt buf stop ≤ 35000) (hne : lengthAt buf stop ≠ 0)
    (hs : (buf.drop (stop + 4)).take (lengthAt buf stop) = s) :
    ∃ r, readNext buf begin stop nextLength data host = some r ∧ r.err = none ∧
      slice buf r.begin r.stop = some s ∧
      r.result = Split s 44 ∧
      r.result.length = s.count 44 + 1 ∧
      (∀ w ∈ r.result, (44 : Byte) ∉ w) ∧
      joinNames r.result = s ∧
      (s = lit "a,b,c" → r.result = [lit "a", lit "b", lit "c"]) ∧
      (s = lit "aes256-ctr" → r.result = [lit "aes256-ctr"]) := by
  have hsne : s ≠ [] := by
    intro h
    have := congrArg List.length hs
    rw [h] at this
    simp only [List.length_take, List.length_drop, List.length_nil] at this
    omega
  refine ⟨_, readNext_field buf begin stop nextLength data host hlen hin, rfl, ?_, ?_,
    ?_, ?_, ?_, ?_, ?_⟩
  · show slice buf (stop + 4) (stop + 4 + lengthAt buf stop) = some s
    rw [slice_of_le buf _ _ (by omega) (by omega), ← hs]
    simp
  all_goals simp only [hs, nameList, if_neg hsne]
  · exact Split_length s 44
  · exact Split_no_sep s 44
  · exact joinNames_Split s
  · intro h; rw [h]; decide
  · intro h; rw [h]; decide

/-- C6 holds of the first name-list of `bufSample`, whose content is "a,b,c". -/
theorem C6_split_at_commas_witness :
    ∃ r, readNext bufSample 22 22 0 SSHExchange.zero (lit "host") = some r ∧
      r.result = [lit "a", lit "b", lit "c"] := by
  obtain ⟨r, h, _, _, _, _, _, _, habc, _⟩ :=
    C6_split_at_commas bufSample 22 22 0 SSHExchange.zero (lit "host") (lit "a,b,c")
      bufSample_length (by decide) (by decide) (by decide)
  exact ⟨r, h, habc rfl⟩

/-- C7: when the four bytes at the cursor's end offset `stop`, which lie within the
35000-byte buffer, hold the length 0, `readNext` returns the empty list and no error,
leaves the record (so `Fail`) as it was, and leaves `begin` and `end` both at
`stop + 4`. -/
theorem C7_empty_field (buf : List Byte) (begin stop nextLength : Nat)
    (data : SSHExchange) (host : GoString) (hlen : buf.length = 35000)
    (h4 : stop + 4 ≤ 35000) (hz : lengthAt buf stop = 0) :
    readNext buf begin stop nextLength data host
      = some { begin := stop + 4, stop := stop + 4, nextLength := 0, data := data,
               result := [], err := none } := by
  rw [readNext_field buf begin stop nextLength data host hlen (by rw [hz]; exact h4), hz]
  rfl

/-- C7 holds of the third name-list of `bufSample`, which is empty and starts at offset
45. -/
theorem C7_empty_field_witness :
    readNext bufSample 35 45 10 SSHExchange.zero (lit "host")
      = some { begin := 49, stop := 49, nextLength := 0, data := SSHExchange.zero,
               result := [], err := none } :=
  C7_empty_field bufSample 35 45 10 SSHExchange.zero (lit "host") bufSample_length
    (by decide) (by decide)

/-- C8 (fails on the code): on the 35000-byte buffer `bufCookieOverflow`, with message
type 20 and the cookie 1, 2, .., 16 at offsets 6 to 21, the length of the first name-list
is read from offsets 22 to 25 and fails the bounds check; the first `readNext` returns
with the cookie in the record, `Fail` set and a nil error, the next `readNext` aborts,
and the decoding part of `Inspect` returns no record, so none that carries the cookie. A
peer that sends the 26 bytes `pktCookieOverflow` as its KEXINIT packet makes `Inspect`
abort. -/
theorem C8_no_record_with_cookie :
    bufCookieOverflow.length = 35000 ∧ byteAt bufCookieOverflow 5 = 20 ∧
      (bufCookieOverflow.drop 6).take 16
        = [1, 2, 3, 4, 5, 6, 7, 8, 9, 10, 11, 12, 13, 14, 15, 16] ∧
      lengthAt bufCookieOverflow 22 = 4294967295 ∧
      (∃ r, readNext bufCookieOverflow 22 22 0
            (withCookie bufCookieOverflow SSHExchange.zero) (lit "host") = some r ∧
        r.data.Cookie = [1, 2, 3, 4, 5, 6, 7, 8, 9, 10, 11, 12, 13, 14, 15, 16] ∧
        r.data.Fail = true ∧ r.err = none ∧ r.stop = 4294967321 ∧
        readNext bufCookieOverflow r.begin r.stop r.nextLength r.data (lit "host") = none) ∧
      Inspect.decode bufCookieOverflow SSHExchange.zero (lit "host") = none ∧
      Inspect (lit "host") (lit "22") (peer pktCookieOverflow) = none := by
  have h : ∀ data : SSHExchange,
      Inspect.decode bufCookieOverflow data (lit "host") = none := fun data =>
    Inspect.decode_panic _ _ _ bufCookieOverflow_length (by decide) 0 (by decide) (by decide)
      (by decide)
  refine ⟨bufCookieOverflow_length, by decide, by decide, by decide, ?_, h _, ?_⟩
  · have hr := readNext_overflow bufCookieOverflow 22 22 0
      (withCookie bufCookieOverflow SSHExchange.zero) (lit "host")
      (by rw [bufCookieOverflow_length]; decide) (by decide)
    have hs : 22 + 4 + lengthAt bufCookieOverflow 22 = 4294967321 := by decide
    refine ⟨_, hr, ?_, rfl, rfl, hs, ?_⟩
    · show (withCookie bufCookieOverflow SSHExchange.zero).Cookie = _
      simp only [withCookie, SSHExchange.zero]
      decide
    · exact readNext_panic _ _ _ _ _ _ (by rw [bufCookieOverflow_length, hs]; decide)
  · rw [Inspect_eq_decode _ _ _ pktCookieOverflow (peer pktCookieOverflow) rfl rfl rfl rfl,
      receive_pktCookieOverflow]
    exact h _

/-- C9 (as stated, fails): on the scenario buffer the decoding part of `Inspect` does not
return `KEXAlgorithms = ["ab"]`: the declared length 3 covers the bytes "ab" and the zero
byte after them. -/
theorem C9_scenario_counterexample :
    ¬ ∃ d, Inspect.decode bufScenario SSHExchange.zero (lit "host") = some d ∧
      d.KEXAlgorithms = [lit "ab"] ∧ d.Fail = false := by
  rintro ⟨d, hd, hk, _⟩
  rw [Inspect.decode_ok bufScenario SSHExchange.zero (lit "host") bufScenario_length
    (by decide) (by decide), fill_all] at hd
  rw [← Option.some.inj hd] at hk
  revert hk
  decide

/-- C9 (amended): on the scenario buffer the decoding part of `Inspect`, run on the
record of a probe of `host` and `port` that received the banner `version`, returns that
record with `KEXAlgorithms` holding the single three-byte name "ab" followed by a zero
byte, the other nine lists empty, a zero cookie, and `Fail` false. -/
theorem C9_scenario (host port version : GoString) :
    Inspect.decode bufScenario
        { SSHExchange.zero with Server := host, Port := port, ProtocolVersion := version } host
      = some { Server := host, Port := port, ProtocolVersion := version,
               Cookie := List.replicate 16 0,
               KEXAlgorithms := [lit "ab" ++ [0]], ServerHostKeyAlgos := [],
               EncAlgosC2S := [], EncAlgosS2C := [], MACAlgosC2S := [], MACAlgosS2C := [],
               CompAlgosC2S := [], CompAlgosS2C := [], LanguagesC2S := [],
               LanguagesS2C := [], Fail := false, FailReason := [] } := by
  rw [Inspect.decode_ok bufScenario _ host bufScenario_length (by decide) (by decide),
    fill_all]
  have hc : (withCookie bufScenario
      { SSHExchange.zero with Server := host, Port := port, ProtocolVersion := version }).Cookie
        = List.replicate 16 0 := by
    simp only [withCookie, SSHExchange.zero]
    decide
  have e : ∀ k, k < 10 → nameList (fieldContent bufScenario k)
      = if k = 0 then [lit "ab" ++ [0]] else [] := by decide
  simp only [e 0 (by decide), e 1 (by decide), e 2 (by decide), e 3 (by decide),
    e 4 (by decide), e 5 (by decide), e 6 (by decide), e 7 (by decide), e 8 (by decide),
    e 9 (by decide), hc]
  rfl

/-- C10: whenever `readNext`, called for `host`, fails the bounds check (the end offset it
computes exceeds 35000), it sets `Fail` and sets `FailReason` to the text of `badServer`
with `host` in the place of `%s` and the decimal digits of the computed end offset (which
denote that offset) in the place of `%d`; so the reason contains both. When the decoding
part of `Inspect`, called for `host`, returns a failed record for a packet of message
type 20, its reason is that text for `host` and the end offset of the tenth name-list. -/
theorem C10_overflow_reason (buf : List Byte) (data : SSHExchange) (host : GoString) :
    (∀ begin stop nextLength, stop + 4 ≤ buf.length →
      35000 < stop + 4 + lengthAt buf stop →
      ∃ r, readNext buf begin stop nextLength data host = some r ∧
        r.stop = stop + 4 + lengthAt buf stop ∧ r.data.Fail = true ∧
        r.data.FailReason
          = lit "Server " ++ host
            ++ lit " is trying to overflow us ;-), we do not expect the key exchange to exceed 35000 bytes, but server is trying to access "
            ++ fmtDec r.stop ++ lit " byte\n" ∧
        host <:+: r.data.FailReason ∧ fmtDec r.stop <:+: r.data.FailReason ∧
        parseDigits 10 (fmtDec r.stop) = r.stop) ∧
      (buf.length = 35000 → byteAt buf 5 = 20 → data.Fail = false →
        ∀ d, Inspect.decode buf data host = some d → d.Fail = true →
          35000 < fieldEnd buf 10 ∧ d.FailReason = badServer host (fieldEnd buf 10)) := by
  constructor
  · intro begin stop nextLength h4 hov
    refine ⟨_, readNext_overflow buf begin stop nextLength data host h4 hov, rfl, rfl, rfl,
      ?_, ?_, parseDigits_fmtDec _⟩
    · exact ⟨lit "Server ",
        lit " is trying to overflow us ;-), we do not expect the key exchange to exceed 35000 bytes, but server is trying to access "
          ++ fmtDec (stop + 4 + lengthAt buf stop) ++ lit " byte\n",
        by simp [badServer]⟩
    · exact ⟨lit "Server " ++ host
          ++ lit " is trying to overflow us ;-), we do not expect the key exchange to exceed 35000 bytes, but server is trying to access ",
        lit " byte\n", by simp [badServer]⟩
  · intro hlen h5 hfail d hd hdf
    rcases Inspect.decode_cases buf data host hlen h5 with ⟨_, h⟩ | ⟨_, h10, h⟩ | ⟨_, h⟩
    · rw [hd, fill_all] at h
      rw [Option.some.inj h] at hdf
      rw [show (withCookie buf data).Fail = data.Fail from rfl, hfail] at hdf
      exact absurd hdf (by decide)
    · rw [hd, failFill_all] at h
      rw [Option.some.inj h]
      exact ⟨h10, rfl⟩
    · rw [hd] at h
      simp at h

/-- C10 holds of the first name-list of `bufOverflow` and of the tenth name-list of
`bufLastOverflow`, both of which declare 4294967295 content bytes. -/
theorem C10_overflow_reason_witness :
    (∃ r, readNext bufOverflow 22 22 0 SSHExchange.zero (lit "host") = some r ∧
        r.stop = 4294967321 ∧
        r.data.FailReason = lit "Server host is trying to overflow us ;-), we do not expect the key exchange to exceed 35000 bytes, but server is trying to access 4294967321 byte\n") ∧
      (∃ d, Inspect.decode bufLastOverflow SSHExchange.zero (lit "host") = some d ∧
        d.FailReason = badServer (lit "host") 4294967357) := by
  have hd := Inspect.decode_last_overflow bufLastOverflow SSHExchange.zero (lit "host")
    bufLastOverflow_length (by decide) (by decide) (by decide)
  have h := C10_overflow_reason bufOverflow SSHExchange.zero (lit "host")
  have h' := C10_overflow_reason bufLastOverflow SSHExchange.zero (lit "host")
  constructor
  · obtain ⟨r, hr, hs, _, hreason, _⟩ :=
      h.1 22 22 0 (by rw [bufOverflow_length]; decide) (by decide)
    have hs' : r.stop = 4294967321 := by rw [hs]; decide
    refine ⟨r, hr, hs', ?_⟩
    rw [hreason, hs']
    decide
  · refine ⟨_, hd, ?_⟩
    have e : fieldEnd bufLastOverflow 10 = 4294967357 := by decide
    rw [← e]
    exact (h'.2 bufLastOverflow_length (by decide) rfl _ hd (by rw [failFill_all])).2

/-- C11: in every record that the decoding part of `Inspect` returns on a 35000-byte
buffer, when run on a record that has an empty `FailReason` unless `Fail` is set (as the
record of `Inspect` has), `FailReason` is non-empty only if `Fail` is true: a record with
`Fail` false has the empty `FailReason`. -/
theorem C11_reason_only_on_failure (buf : List Byte) (data d : SSHExchange)
    (host : GoString) (hlen : buf.length = 35000)
    (hinv : data.Fail = false → data.FailReason = [])
    (hdec : Inspect.decode buf data host = some d) :
    (d.FailReason ≠ [] → d.Fail = true) ∧ (d.Fail = false → d.FailReason = []) := by
  have key : d.Fail = false → d.FailReason = [] := by
    intro hok
    obtain ⟨_, _, hd⟩ := Inspect.decode_success buf data d host hlen hdec hok
    rw [hd, fill_all] at hok ⊢
    exact hinv hok
  refine ⟨fun hne => ?_, key⟩
  cases hf : d.Fail with
  | true => rfl
  | false => exact absurd (key hf) hne

/-- C11 holds of the record decoded from the packet `bufSample`: `Fail` is false and
`FailReason` is empty. -/
theorem C11_reason_only_on_failure_witness :
    ∃ d, Inspect.decode bufSample SSHExchange.zero (lit "host") = some d ∧
      d.Fail = false ∧ d.FailReason = [] := by
  have h := Inspect.decode_ok bufSample SSHExchange.zero (lit "host") bufSample_length
    (by decide) (by decide)
  have hf : (fill bufSample Field.all 0 (withCookie bufSample SSHExchange.zero)).Fail = false := by
    rw [fill_all]; rfl
  exact ⟨_, h, hf,
    (C11_reason_only_on_failure bufSample SSHExchange.zero _ (lit "host") bufSample_length
      (fun _ => rfl) h).2 hf⟩

/-- C12: on a 35000-byte buffer every call of `readNext` whose length read is in range
returns, and every call that returns has set `begin` to the old `end` plus 4 and `end` to
`begin` plus the declared length, so that `begin` is at most `end` and `end` has grown.
The pairs of `begin` and `end` left by the successive calls that `Inspect` makes,
starting from `begin = end = 22`, each move forward from the one before. -/
theorem C12_cursor_forward (buf : List Byte) (data : SSHExchange) (host : GoString)
    (hlen : buf.length = 35000) :
    (∀ begin stop nextLength dat, stop + 4 ≤ 35000 →
      ∃ r, readNext buf begin stop nextLength dat host = some r) ∧
      (∀ begin stop nextLength dat r,
        readNext buf begin stop nextLength dat host = some r →
          r.begin = stop + 4 ∧ r.nextLength = lengthAt buf stop ∧
          r.stop = r.begin + r.nextLength ∧ r.begin ≤ r.stop ∧ stop < r.stop) ∧
      (Inspect.decode buf data host
        = if byteAt buf 5 ≠ 20 then
            some { data with Fail := true,
                             FailReason := expectingKexinit 20 (byteAt buf 5).val }
          else
            (readFieldsTrace buf host Field.all ⟨22, 22, 0, withCookie buf data⟩).2.map
              (fun c => c.data)) ∧
      List.Chain Forward (22, 22)
        (readFieldsTrace buf host Field.all ⟨22, 22, 0, withCookie buf data⟩).1 := by
  refine ⟨?_, ?_, ?_, ?_⟩
  · intro begin stop nextLength dat h4
    exact readNext_returns buf begin stop nextLength dat host hlen h4
  · intro begin stop nextLength dat r h
    obtain ⟨_, _, hb, hn, hs, _⟩ := readNext_some buf begin stop nextLength dat host r h
    refine ⟨hb, hn, ?_, ?_, ?_⟩
    · rw [hs, hb, hn]
    · rw [hs, hb]; omega
    · rw [hs]; omega
  · rw [readFieldsTrace_snd, Inspect.decode_header buf data host hlen]
    rfl
  · exact readFieldsTrace_chain buf host Field.all ⟨22, 22, 0, withCookie buf data⟩ 22

/-- C12 holds of the packet `bufSample`: the ten calls leave the cursor at (26, 31),
(35, 45), (49, 49), .., (77, 77), each step forward from the one before. -/
theorem C12_cursor_forward_witness :
    (readFieldsTrace bufSample (lit "host") Field.all
        ⟨22, 22, 0, withCookie bufSample SSHExchange.zero⟩).1
      = [(26, 31), (35, 45), (49, 49), (53, 53), (57, 57), (61, 61), (65, 65), (69, 69),
          (73, 73), (77, 77)] ∧
      List.Chain Forward (22, 22)
        (readFieldsTrace bufSample (lit "host") Field.all
          ⟨22, 22, 0, withCookie bufSample SSHExchange.zero⟩).1 := by
  refine ⟨?_, (C12_cursor_forward bufSample SSHExchange.zero (lit "host")
    bufSample_length).2.2.2⟩
  rw [readFieldsTrace_ok bufSample (lit "host") bufSample_length Field.all 0 _ rfl (by decide)]
  decide

/-- C13: two 35000-byte buffers that hold the same bytes from offset 5 up to the end of
the tenth name-list, and so differ at most in the bytes at offsets 0 to 4 and in the bytes
after the tenth name-list, are decoded by `Inspect`, for the same host and from the same
record, to the same outcome. -/
theorem C13_depends_only_on_parsed_bytes (b1 b2 : List Byte) (data : SSHExchange)
    (host : GoString) (h1 : b1.length = 35000) (h2 : b2.length = 35000)
    (hagree : ∀ i, 5 ≤ i → i < fieldEnd b1 10 → byteAt b1 i = byteAt b2 i) :
    Inspect.decode b1 data host = Inspect.decode b2 data host := by
  have hl : b1.length = b2.length := by rw [h1, h2]
  have hm : fieldEnd b1 0 + 4 * 10 ≤ fieldEnd b1 (0 + 10) := fieldEnd_add_le b1 0 10
  have h22 : fieldEnd b1 0 = 22 := rfl
  rw [Nat.zero_add] at hm
  have h5 : byteAt b1 5 = byteAt b2 5 := hagree 5 (by omega) (by omega)
  have hagree' : ∀ i, 22 ≤ i → i < fieldEnd b1 10 → byteAt b1 i = byteAt b2 i :=
    fun i hi1 hi2 => hagree i (by omega) hi2
  have he := fieldEnd_congr b1 b2 10 hagree'
  have hc := fieldContent_congr b1 b2 hl 10 hagree'
  have hck : withCookie b1 data = withCookie b2 data := by
    simp only [withCookie]
    rw [drop_take_congr b1 b2 hl 6 16 (fun i hi1 hi2 => hagree i (by omega) (by omega))]
  by_cases ht : byteAt b1 5 = 20
  · have ht2 : byteAt b2 5 = 20 := by rw [← h5]; exact ht
    have e9 := he 9 (by decide)
    have e10 := he 10 (by decide)
    rcases Inspect.decode_cases b1 data host h1 ht with ⟨a10, a⟩ | ⟨a9, a10, a⟩ | ⟨a9, a⟩
    · rw [a, Inspect.decode_ok b2 data host h2 ht2 (by rw [← e10]; exact a10), fill_all,
        fill_all, hck, hc 0 (by decide), hc 1 (by decide), hc 2 (by decide), hc 3 (by decide),
        hc 4 (by decide), hc 5 (by decide), hc 6 (by decide), hc 7 (by decide),
        hc 8 (by decide), hc 9 (by decide)]
    · rw [a, Inspect.decode_last_overflow b2 data host h2 ht2 (by rw [← e9]; exact a9)
        (by rw [← e10]; exact a10), failFill_all, failFill_all, hck, e10, hc 0 (by decide),
        hc 1 (by decide), hc 2 (by decide), hc 3 (by decide), hc 4 (by decide),
        hc 5 (by decide), hc 6 (by decide), hc 7 (by decide), hc 8 (by decide)]
    · rcases Inspect.decode_cases b2 data host h2 ht2 with ⟨c10, _⟩ | ⟨c9, _, _⟩ | ⟨_, c⟩
      · have := fieldEnd_add_le b2 9 1
        rw [← e10] at c10
        rw [← e9, ← e10] at this
        simp only [maxSize] at a9 c10
        omega
      · rw [← e9] at c9
        omega
      · rw [a, c]
  · rw [Inspect.decode_header b1 data host h1, Inspect.decode_header b2 data host h2,
      if_pos ht, if_pos (by rw [← h5]; exact ht), h5]

/-- C13 holds of the buffers `bufSample` and `bufSampleNoise`, which differ at offsets 0
to 4 and from offset 77 on: both are decoded to the same record. -/
theorem C13_depends_only_on_parsed_bytes_witness :
    byteAt bufSample 0 ≠ byteAt bufSampleNoise 0 ∧
      byteAt bufSample 77 ≠ byteAt bufSampleNoise 77 ∧
      Inspect.decode bufSample SSHExchange.zero (lit "host")
        = Inspect.decode bufSampleNoise SSHExchange.zero (lit "host") ∧
      ∃ d, Inspect.decode bufSampleNoise SSHExchange.zero (lit "host") = some d ∧
        d.KEXAlgorithms = [lit "a", lit "b", lit "c"] := by
  have e : fieldEnd bufSample 10 = 77 := by decide
  have hall : ∀ i, i < 77 → 5 ≤ i → byteAt bufSample i = byteAt bufSampleNoise i := by
    decide
  have h := C13_depends_only_on_parsed_bytes bufSample bufSampleNoise SSHExchange.zero
    (lit "host") bufSample_length bufSampleNoise_length
    (fun i hi1 hi2 => hall i (by rw [e] at hi2; exact hi2) hi1)
  refine ⟨by decide, by decide, h, ?_⟩
  rw [← h, Inspect.decode_ok bufSample SSHExchange.zero (lit "host") bufSample_length
    (by decide) (by decide), fill_all]
  exact ⟨_, rfl, by decide⟩

/-- C14 (fails on the code): on the 35000-byte buffer `bufOverflow`, with message type 20,
the first name-list fails the bounds check, so that no name-list among the first nine is
accepted with an end offset in 34997..35000; yet the next `readNext` evaluates
the slice `buf[4294967321:4294967325]`, which is out of range, and the decoding part of
`Inspect` returns no record. -/
theorem C14_abort_after_failed_check :
    bufOverflow.length = 35000 ∧ byteAt bufOverflow 5 = 20 ∧
      fieldEnd bufOverflow 1 = 4294967321 ∧
      (∀ k, k < 9 → ¬ (34997 ≤ fieldEnd bufOverflow (k + 1) ∧
        fieldEnd bufOverflow (k + 1) ≤ 35000)) ∧
      (∃ r, readNext bufOverflow 22 22 0 SSHExchange.zero (lit "host") = some r ∧
        r.stop = 4294967321 ∧ r.err = none ∧
        readNext bufOverflow r.begin r.stop r.nextLength r.data (lit "host") = none) ∧
      slice bufOverflow 4294967321 4294967325 = none ∧
      Inspect.decode bufOverflow SSHExchange.zero (lit "host") = none := by
  have e1 : fieldEnd bufOverflow 1 = 4294967321 := by decide
  refine ⟨bufOverflow_length, by decide, e1, ?_, ?_, ?_, ?_⟩
  · intro k _ h
    have := fieldEnd_mono bufOverflow 1 (k + 1) (by omega)
    omega
  · obtain ⟨r, hr⟩ := readNext_returns bufOverflow 22 22 0 SSHExchange.zero (lit "host")
      bufOverflow_length (by decide)
    obtain ⟨_, he, _, _, hs, _⟩ := readNext_some _ _ _ _ _ _ r hr
    have hs' : r.stop = 4294967321 := by rw [hs]; decide
    refine ⟨r, hr, hs', he, ?_⟩
    exact readNext_panic _ _ _ _ _ _ (by rw [bufOverflow_length, hs']; decide)
  · exact slice_of_gt _ _ _ (by rw [bufOverflow_length]; decide)
  · exact (Inspect.decode_eq_none_iff bufOverflow SSHExchange.zero (lit "host")
      bufOverflow_length (by decide)).2 (by
        have := fieldEnd_mono bufOverflow 1 9 (by decide)
        rw [e1] at this
        simp only [maxSize]
        omega)

/-- C15 (fails on the code): on the 35000-byte buffer `bufSecondOverflow`, with message
type 20, the first name-list "a,b,c" is decoded and the second fails the bounds check
(k = 2); the decoding part of `Inspect` then returns no record at all, and a peer that
sends the 35 bytes `pktSecondOverflow` as its KEXINIT packet makes `Inspect` abort. -/
theorem C15_no_record_after_failed_check :
    bufSecondOverflow.length = 35000 ∧ byteAt bufSecondOverflow 5 = 20 ∧
      fieldEnd bufSecondOverflow 1 = 31 ∧
      nameList (fieldContent bufSecondOverflow 0) = [lit "a", lit "b", lit "c"] ∧
      35000 < fieldEnd bufSecondOverflow 2 ∧
      Inspect.decode bufSecondOverflow SSHExchange.zero (lit "host") = none ∧
      Inspect (lit "host") (lit "22") (peer pktSecondOverflow) = none := by
  have h : ∀ data : SSHExchange,
      Inspect.decode bufSecondOverflow data (lit "host") = none := fun data =>
    Inspect.decode_panic _ _ _ bufSecondOverflow_length (by decide) 1 (by decide) (by decide)
      (by decide)
  refine ⟨bufSecondOverflow_length, by decide, by decide, by decide, by decide, h _, ?_⟩
  rw [Inspect_eq_decode _ _ _ pktSecondOverflow (peer pktSecondOverflow) rfl rfl rfl rfl,
    receive_pktSecondOverflow]
  exact h _

/-- C16: on a 35000-byte buffer the slice `buf[:4]` read in `Inspect` has exactly four
bytes, and so has every slice `buf[*end:*end+4]` of `readNext` that is in range; the
big-endian read of such a slice returns a number and no error. So every returning call
of `readNext` returns a nil error, and sets `Fail` only on its bounds check; and a
failure that the decoding part of `Inspect` reports, on a record that had not failed, is
either the message-type mismatch or the bounds check of the tenth name-list. -/
theorem C16_read_errors_unreachable (buf : List Byte) (data : SSHExchange)
    (host : GoString) (hlen : buf.length = 35000) :
    (∃ b, slice buf 0 4 = some b ∧ b.length = 4 ∧ binaryRead b = .ok (lengthAt buf 0)) ∧
      (∀ stop b, slice buf stop (stop + 4) = some b →
        b.length = 4 ∧ binaryRead b = .ok (lengthAt buf stop)) ∧
      (∀ begin stop nextLength dat r,
        readNext buf begin stop nextLength dat host = some r →
          r.err = none ∧
          (r.data = dat ∨
            (35000 < r.stop ∧
              r.data = { dat with Fail := true, FailReason := badServer host r.stop }))) ∧
      (∀ d, Inspect.decode buf data host = some d → data.Fail = false → d.Fail = true →
        (byteAt buf 5 ≠ 20 ∧ d.FailReason = expectingKexinit 20 (byteAt buf 5).val) ∨
        (byteAt buf 5 = 20 ∧ 35000 < fieldEnd buf 10 ∧
          d.FailReason = badServer host (fieldEnd buf 10))) := by
  refine ⟨?_, ?_, ?_, ?_⟩
  · have h4 : 0 + 4 ≤ buf.length := by rw [hlen]; decide
    have hs : slice buf 0 (0 + 4) = some ((buf.drop 0).take 4) := by
      rw [slice_of_le buf 0 (0 + 4) (by omega) h4]
    exact ⟨_, hs, (slice_four buf 0 _ hs).2⟩
  · intro stop b h
    exact (slice_four buf stop b h).2
  · intro begin stop nextLength dat r h
    obtain ⟨_, he, _, _, _, hd⟩ := readNext_some buf begin stop nextLength dat host r h
    exact ⟨he, hd⟩
  · intro d hdec hdata hfail
    rcases Inspect.decode_failure buf data d host hlen hdec hfail with h | h | ⟨h5, _, h10, hr⟩
    · rw [hdata] at h
      exact absurd h (by decide)
    · exact Or.inl h
    · exact Or.inr ⟨h5, h10, hr⟩

/-- C16 holds of the packet `bufLastOverflow`: the failure reported is the bounds check
of its tenth name-list, and the first call of `readNext` returns a nil error. -/
theorem C16_read_errors_unreachable_witness :
    (∃ d, Inspect.decode bufLastOverflow SSHExchange.zero (lit "host") = some d ∧
        d.Fail = true ∧ d.FailReason = badServer (lit "host") (fieldEnd bufLastOverflow 10)) ∧
      (∃ r, readNext bufLastOverflow 22 22 0 SSHExchange.zero (lit "host") = some r ∧
        r.err = none) := by
  have h16 := C16_read_errors_unreachable bufLastOverflow SSHExchange.zero (lit "host")
    bufLastOverflow_length
  have hd := Inspect.decode_last_overflow bufLastOverflow SSHExchange.zero (lit "host")
    bufLastOverflow_length (by decide) (by decide) (by decide)
  have hf : (failFill bufLastOverflow (lit "host") Field.all 0
      (withCookie bufLastOverflow SSHExchange.zero)).Fail = true := by
    rw [failFill_all]
  constructor
  · refine ⟨_, hd, hf, ?_⟩
    rcases h16.2.2.2 _ hd rfl hf with ⟨h5, _⟩ | ⟨_, _, hr⟩
    · exact absurd (show byteAt bufLastOverflow 5 = 20 by decide) h5
    · exact hr
  · obtain ⟨r, hr⟩ := readNext_returns bufLastOverflow 22 22 0 SSHExchange.zero (lit "host")
      bufLastOverflow_length (by decide)
    exact ⟨r, hr, (h16.2.2.1 22 22 0 SSHExchange.zero r hr).1⟩

end sshscan
